import Mathlib

/-!
Verification of the segment store of `PandocCodeDecorator`
(src/src/main.js).  The class keeps `_elementEntryPoints`, a list of
entries sorted by character offset, one per rendered `<span>`; the public
operations locate an offset, split entries so that a requested range falls
on entry boundaries, and add or remove CSS classes over the aligned range.

The embedding below translates that code directly:

* an `Entry` is one element of `_elementEntryPoints`, with the span's
  `textContent` as a `List Char` and its `classList` as a `List String`;
* JavaScript offset arguments are `JOff` (a finite integer or `Infinity`);
* a thrown `TypeError` (reading a property of `undefined`) is modelled by
  `Option`: `none` is a crash;
* `locateEntry`'s result is `LocRes`: `notFound` is the JS value
  `undefined`, and `found entry index` is the object `{entry, index}`,
  whose `entry` field can itself hold `undefined` (`none`).
-/

namespace PandocCodeDecorator

/-- Entry of `_elementEntryPoints` as pushed by `initializeEntryPoints`
(src/src/main.js lines 40-45): offset, line, column and, standing for the
DOM node, its `textContent` and `classList`.  The `line` field is
`Option Int`: `none` models the NaN that `Number(line.id.split("-").pop())`
produces when the id's last dash-component is not numeric. -/
structure Entry where
  offset : Int
  line : Option Int
  column : Int
  text : List Char
  classes : List String
deriving DecidableEq, Repr

/-- Offset argument as JavaScript passes it: a finite integer or the
`Infinity` sentinel meaning "through end of document". -/
inductive JOff where
  | fin (v : Int)
  | inf
deriving DecidableEq, Repr

/-- Result of `locateEntry` (src/src/main.js lines 55-72): `crash` models a
thrown TypeError, `notFound` the return value `undefined`, and
`found entry index` the object `{entry, index}` — `entry` is `none` when
that field holds `undefined` (return on the very first loop iteration). -/
inductive LocRes where
  | crash
  | notFound
  | found (entry : Option Entry) (index : Int)
deriving DecidableEq, Repr

/-- Code after `locateEntry`'s loop (src/src/main.js lines 67-71): test the
final candidate's range; reading `candidate.offset` when no candidate was
ever set (empty entry array) throws. -/
def locateFinal (off : Int) (total : Int) (cand : Option Entry) : LocRes :=
  match cand with
  | none => .crash
  | some c =>
    if off < c.offset + (c.text.length : Int) then .found (some c) (total - 1)
    else .notFound

/-- Loop of `locateEntry` (src/src/main.js lines 60-66): scan entries in
order keeping the last one whose offset is not past `off`; on the first
entry whose offset exceeds `off`, return the candidate and the previous
index. -/
def locateLoop (off : Int) (total : Int) :
    List Entry → Option Entry → Int → LocRes
  | [], cand, _ => locateFinal off total cand
  | en :: rest, cand, i =>
    if off < en.offset then .found cand (i - 1)
    else locateLoop off total rest (some en) (i + 1)

/-- Function `locateEntry(offset)` (src/src/main.js lines 55-72), with the
early `undefined` return for `Infinity`. -/
def locateEntry (entries : List Entry) (o : JOff) : LocRes :=
  match o with
  | .inf => .notFound
  | .fin off => locateLoop off entries.length entries none 0

/-- Position object returned by `offsetToLineColumn`. -/
structure Pos where
  line : Option Int
  column : Int
deriving DecidableEq, Repr

/-- Column clamp of the not-found branch of `offsetToLineColumn`
(src/src/main.js line 83): `Math.min(last.node.textContent.length,
offset - last.offset)`; with `offset = Infinity` the subtraction is
`Infinity` and the minimum is the text length. -/
def clampColumnDelta (len : Nat) (o : JOff) (base : Int) : Int :=
  match o with
  | .inf => len
  | .fin v => min (len : Int) (v - base)

/-- Function `offsetToLineColumn(offset)` (src/src/main.js lines 74-90).
`none` models a thrown TypeError: reading `entries[-1].line` on an empty
array, or `entry.entry.line` when the located result's `entry` field is
`undefined`.  The `found - inf` branch is unreachable because
`locateEntry` answers `notFound` on `Infinity`. -/
def offsetToLineColumn (entries : List Entry) (o : JOff) : Option Pos :=
  match locateEntry entries o with
  | .crash => none
  | .notFound =>
    match entries.getLast? with
    | none => none
    | some last =>
      some ⟨last.line, last.column + clampColumnDelta last.text.length o last.offset⟩
  | .found none _ => none
  | .found (some en) _ =>
    match o with
    | .fin v => some ⟨en.line, en.column + (v - en.offset)⟩
    | .inf => none

/-- Truncated original entry of a split (src/src/main.js lines 138-140):
`entry.node.textContent = entry.node.textContent.slice(0, offset - entry.offset)`.
JavaScript `slice(0, k)` with the clamped non-negative index is
`List.take`. -/
def truncEntry (en : Entry) (o : Int) : Entry :=
  { en with text := en.text.take (o - en.offset).toNat }

/-- New span pushed by a split (src/src/main.js lines 134-148): offset `o`,
the original's line, column advanced by `o - entry.offset`, the text from
`o` on (`slice(offset - entry.offset)`, i.e. `List.drop`), and a copy of
the original's class list. -/
def splitNewEntry (en : Entry) (o : Int) : Entry :=
  { offset := o, line := en.line, column := en.column + (o - en.offset),
    text := en.text.drop (o - en.offset).toNat, classes := en.classes }

/-- Helper `splitEntry(entry, offset)` of `ensureExactSpan`
(src/src/main.js lines 133-150), acting on the entry at index `i`:
truncate its text to the part before `o`, push the new span and re-sort
the entry array by offset.  The source sorts with the comparator
`(a, b) => a.offset - b.offset`; a stable sort by that key is modelled by
`List.insertionSort` on the offsets. -/
def splitEntryList (entries : List Entry) (i : Nat) (o : Int) : List Entry :=
  match entries[i]? with
  | none => entries
  | some en =>
    List.insertionSort (fun a b => a.offset ≤ b.offset)
      ((entries.set i (truncEntry en o)) ++ [splitNewEntry en o])

/-- One boundary of `ensureExactSpan` (src/src/main.js lines 152-159):
locate the boundary and split unless either nothing was located or an
entry already starts exactly there.  Reading `.offset` on an `undefined`
`entry` field throws (`none`).  The `found - inf` branch is unreachable
(`locateEntry` answers `notFound` on `Infinity`). -/
def ensureBoundary (entries : List Entry) (o : JOff) : Option (List Entry) :=
  match locateEntry entries o with
  | .crash => none
  | .notFound => some entries
  | .found none _ => none
  | .found (some en) idx =>
    match o with
    | .inf => some entries
    | .fin v =>
      if en.offset ≠ v then some (splitEntryList entries idx.toNat v)
      else some entries

/-- Function `ensureExactSpan(start, end)` (src/src/main.js lines 132-160):
handle the start boundary first, then the end boundary on the updated
array. -/
def ensureExactSpan (entries : List Entry) (s e : JOff) : Option (List Entry) :=
  match ensureBoundary entries s with
  | none => none
  | some st => ensureBoundary st e

/-- Call `classList.add(c)`: a DOMTokenList appends `c` unless it is
already present. -/
def addClass (l : List String) (c : String) : List String :=
  if c ∈ l then l else l ++ [c]

/-- Add every class of `cs` in order (src/src/main.js lines 114-116). -/
def addClasses (l : List String) (cs : List String) : List String :=
  cs.foldl addClass l

/-- Call `classList.remove(c)`: every occurrence of the token goes. -/
def removeClass (l : List String) (c : String) : List String :=
  l.filter (fun x => x ≠ c)

/-- Remove every class of `cs` in order (src/src/main.js lines 172-174). -/
def removeClasses (l : List String) (cs : List String) : List String :=
  cs.foldl removeClass l

/-- Resolution `(endEntry && endEntry.index) || length` (src/src/main.js
lines 105 and 170): a missing result is falsy, and so is the index 0 —
both fall through to the array length; the index -1 is truthy and is kept.
The `crash` arm is never consulted (a crash is propagated beforehand). -/
def resolveEndIndex (r : LocRes) (len : Int) : Int :=
  match r with
  | .crash => len
  | .notFound => len
  | .found _ idx => if idx = 0 then len else idx

/-- Shared tag loop `for (let i = startIndex; i < endIndex; ++i)`
(src/src/main.js lines 106-108 and 171-175): rewrite the class list of
every entry whose index lies in `[lo, hi)`. -/
def applyRange (entries : List Entry) (lo hi : Int)
    (f : List String → List String) : List Entry :=
  entries.mapIdx fun i en =>
    if lo ≤ (i : Int) ∧ (i : Int) < hi then { en with classes := f en.classes }
    else en

/-- Function `decorateSpan(start, end, classes)` (src/src/main.js lines
112-118, consuming `spanSelection`, lines 97-109): align boundaries,
locate both ends, return early when the start is not located, otherwise
add every class over `[startIndex, endIndex)`. -/
def decorateSpan (entries : List Entry) (s e : JOff) (classes : List String) :
    Option (List Entry) :=
  match ensureExactSpan entries s e with
  | none => none
  | some st =>
    match locateEntry st s, locateEntry st e with
    | .crash, _ => none
    | _, .crash => none
    | .notFound, _ => some st
    | .found _ sIdx, er =>
      some (applyRange st sIdx (resolveEndIndex er st.length)
        (fun l => addClasses l classes))

/-- Function `clearSpan(start, end, classes)` (src/src/main.js lines
162-176, the later definition, which overrides the earlier one at line
121): same selection as `decorateSpan`, removing the classes instead. -/
def clearSpan (entries : List Entry) (s e : JOff) (classes : List String) :
    Option (List Entry) :=
  match ensureExactSpan entries s e with
  | none => none
  | some st =>
    match locateEntry st s, locateEntry st e with
    | .crash, _ => none
    | _, .crash => none
    | .notFound, _ => some st
    | .found _ sIdx, er =>
      some (applyRange st sIdx (resolveEndIndex er st.length)
        (fun l => removeClasses l classes))

/-- Run of `initializeEntryPoints`'s inner loop input: one
already-normalized `<span>` child, its text and class list. -/
structure Run where
  text : List Char
  classes : List String
deriving DecidableEq, Repr

/-- Rendered line as `initializeEntryPoints` consumes it
(src/src/main.js lines 34-51): the outcome of
`Number(line.id.split("-").pop())` — `none` models NaN from an id whose
last dash-component is not numeric — and the line's span children. -/
structure CodeLine where
  lineNumber : Option Int
  runs : List Run
deriving DecidableEq, Repr

/-- Inner loop of `initializeEntryPoints` (src/src/main.js lines 37-49):
push one entry per span child, advancing the offset and column cursors by
the text length. -/
def pushRuns (lineNumber : Option Int) :
    List Run → Int → Int → List Entry
  | [], _, _ => []
  | r :: rs, off, col =>
    ⟨off, lineNumber, col, r.text, r.classes⟩ ::
      pushRuns lineNumber rs (off + r.text.length) (col + r.text.length)

/-- Total text length of a line's runs. -/
def lineTextLength (l : CodeLine) : Int :=
  ((l.runs.map fun r => r.text.length).sum : Nat)

/-- Outer loop of `initializeEntryPoints` (src/src/main.js lines 34-51):
after each line the offset cursor advances by one more for the implicit
line break, and the column cursor restarts at 1. -/
def buildFrom : List CodeLine → Int → List Entry
  | [], _ => []
  | l :: ls, off =>
    pushRuns l.lineNumber l.runs off 1 ++ buildFrom ls (off + lineTextLength l + 1)

/-- Function `initializeEntryPoints` (src/src/main.js lines 29-53): the
offset cursor starts at `-bias` where `bias` is the optional
`data-source-offset` attribute (0 when absent). -/
def initializeEntryPoints (bias : Int) (lines : List CodeLine) : List Entry :=
  buildFrom lines (-bias)

/-- Store invariant: offsets strictly increase, and each entry's half-open
text range ends no later than the next entry begins. -/
def WF (entries : List Entry) : Prop :=
  entries.Chain' fun a b =>
    a.offset < b.offset ∧ a.offset + (a.text.length : Int) ≤ b.offset


/-- Executable check of the store invariant, used to evaluate `WF` on
concrete stores. -/
def wfCheck : List Entry → Bool
  | [] => true
  | [_] => true
  | a :: b :: rest =>
    (decide (a.offset < b.offset) &&
      decide (a.offset + (a.text.length : Int) ≤ b.offset)) && wfCheck (b :: rest)

/-- One-past-the-end offset of the last entry (0 for an empty store). -/
def docEnd (entries : List Entry) : Int :=
  match entries.getLast? with
  | none => 0
  | some en => en.offset + en.text.length

/-- Concatenation of every entry's text, in store order. -/
def concatTexts (entries : List Entry) : List Char :=
  (entries.map fun en => en.text).flatten

/-- Number of entries whose offset is at most `v`; on a sorted store this
is the index one past the loop's final candidate. -/
def cntLe (entries : List Entry) (v : Int) : Nat :=
  entries.countP fun en => en.offset ≤ v

/-- Strict ordering of two entries by offset. -/
def offLt (a b : Entry) : Prop := a.offset < b.offset

/-- Boundary `o` needs no further split on `st`: it is the sentinel, lies
at or past the document end, or an entry already starts exactly there. -/
def Aligned (st : List Entry) (o : JOff) : Prop :=
  o = .inf ∨ ∃ v, o = .fin v ∧ (docEnd st ≤ v ∨ ∃ e ∈ st, e.offset = v)

/-- What one successful pass of the splitter preserves: the invariant, the
text concatenation, the length order, the first offset, the document end,
every original entry's position and bookkeeping fields, and the provenance
of every class list. -/
def StoreStep (st st' : List Entry) : Prop :=
  WF st' ∧ concatTexts st' = concatTexts st ∧ st.length ≤ st'.length ∧
  ((st.head?).map Entry.offset = (st'.head?).map Entry.offset) ∧
  docEnd st' = docEnd st ∧
  (∀ e ∈ st, ∃ e' ∈ st', e'.offset = e.offset ∧ e'.line = e.line ∧
    e'.column = e.column ∧ e'.classes = e.classes) ∧
  (∀ e' ∈ st', ∃ e ∈ st, e'.classes = e.classes)

/-- Offset-and-text-length skeleton of a store, all that `locateEntry`
and the split decisions ever inspect. -/
def skel (st : List Entry) : List (Int × Nat) :=
  st.map fun en => (en.offset, en.text.length)

/-- Two entries agreeing on offset and text length. -/
def entMatch (a b : Entry) : Prop :=
  a.offset = b.offset ∧ a.text.length = b.text.length

/-- Two optional entries agreeing on offset and text length. -/
def optMatch : Option Entry → Option Entry → Prop
  | none, none => True
  | some a, some b => entMatch a b
  | _, _ => False

/-- Two lookup results of the same shape: same constructor, same index,
matching entries. -/
def resMatch : LocRes → LocRes → Prop
  | .crash, .crash => True
  | .notFound, .notFound => True
  | .found oe i, .found oe2 j => optMatch oe oe2 ∧ i = j
  | _, _ => False

instance : IsTrans Entry offLt :=
  ⟨fun _ _ _ hab hbc => Int.lt_trans hab hbc⟩

instance : IsAntisymm Entry offLt :=
  ⟨fun _ _ hab hba => absurd (Int.lt_trans hab hba) (lt_irrefl _)⟩

instance : IsTrans Entry fun a b =>
    a.offset < b.offset ∧ a.offset + (a.text.length : Int) ≤ b.offset := by
  constructor
  rintro a b c ⟨h1, h2⟩ ⟨h3, h4⟩
  exact ⟨by omega, by omega⟩

theorem WF.pairwise {st : List Entry} (h : WF st) :
    st.Pairwise fun a b =>
      a.offset < b.offset ∧ a.offset + (a.text.length : Int) ≤ b.offset :=
  List.chain'_iff_pairwise.mp h

theorem WF.sorted {st : List Entry} (h : WF st) : st.Pairwise offLt :=
  h.pairwise.imp fun hab => hab.1

theorem wf_of_pairwise {st : List Entry}
    (h : st.Pairwise fun a b =>
      a.offset < b.offset ∧ a.offset + (a.text.length : Int) ≤ b.offset) :
    WF st := by
  exact List.chain'_iff_pairwise.mpr h

theorem wfCheck_iff (st : List Entry) : wfCheck st = true ↔ WF st := by
  induction st with
  | nil => simp [wfCheck, WF]
  | cons a t ih =>
    cases t with
    | nil => simp [wfCheck, WF]
    | cons b rest =>
      unfold wfCheck
      rw [Bool.and_eq_true, Bool.and_eq_true, decide_eq_true_eq, decide_eq_true_eq]
      unfold WF at *
      rw [List.chain'_cons]
      rw [← ih]

instance : DecidablePred WF := fun st => decidable_of_iff _ (wfCheck_iff st)

theorem cntLe_le_length (st : List Entry) (v : Int) : cntLe st v ≤ st.length :=
  List.countP_le_length _

/-- On an offset-sorted store, an entry's offset is at most `v` exactly
when its index is below `cntLe`. -/
theorem cntLe_iff {st : List Entry} (hs : st.Pairwise offLt) (v : Int) :
    ∀ k (hk : k < st.length), (st[k].offset ≤ v ↔ k < cntLe st v) := by
  induction st with
  | nil => intro k hk; simp at hk
  | cons h t ih =>
    intro k hk
    rcases List.pairwise_cons.mp hs with ⟨hh, ht⟩
    have hcons : cntLe (h :: t) v
        = cntLe t v + if h.offset ≤ v then 1 else 0 := by
      simp [cntLe, List.countP_cons]
    by_cases hv : h.offset ≤ v
    · rw [hcons, if_pos hv]
      cases k with
      | zero => simpa using hv
      | succ k =>
        have hk' : k < t.length := by simpa using hk
        have := ih ht k hk'
        simp only [List.getElem_cons_succ]
        rw [this]
        omega
    · have hzero : cntLe t v = 0 := by
        refine List.countP_eq_zero.mpr fun a ha => ?_
        have h0 := hh a ha
        simp only [offLt] at h0
        simp only [decide_eq_true_eq]
        omega
      rw [hcons, if_neg hv, hzero]
      cases k with
      | zero => simpa using hv
      | succ k =>
        have hk' : k < t.length := by simpa using hk
        have h0 := hh (t[k]) (List.getElem_mem hk')
        simp only [offLt] at h0
        simp only [List.getElem_cons_succ]
        constructor
        · intro hle; omega
        · intro hcon; omega

/-- Helper for the loop lemmas: the candidate after scanning one more
entry. -/
theorem getLast?_cons_or (e : Entry) (t : List Entry) (cand : Option Entry) :
    ((e :: t).getLast?).or cand = (t.getLast?).or (some e) := by
  cases t with
  | nil => simp
  | cons a t' =>
    rw [List.getLast?_cons_cons]
    obtain ⟨x, hx⟩ := Option.isSome_iff_exists.mp
      (List.getLast?_isSome.mpr (List.cons_ne_nil a t'))
    rw [hx]
    simp [Option.or]

/-- Loop of `locateEntry` when every remaining entry's offset is at most
`off`: the scan runs to the end and the final candidate is the last
remaining entry (or the incoming candidate when none remain). -/
theorem locateLoop_all_le {off total : Int} {rest : List Entry}
    (h : ∀ en ∈ rest, en.offset ≤ off) :
    ∀ (cand : Option Entry) (i : Int),
      locateLoop off total rest cand i = locateFinal off total ((rest.getLast?).or cand) := by
  induction rest with
  | nil => intro cand i; simp [locateLoop]
  | cons e t ih =>
    intro cand i
    have he : e.offset ≤ off := h e (by simp)
    simp only [locateLoop]
    rw [if_neg (by omega)]
    rw [ih (fun x hx => h x (by simp [hx])) (some e) (i + 1)]
    rw [getLast?_cons_or]

/-- Loop of `locateEntry` when a later entry's offset exceeds `off`: the
scan stops at the first such entry and returns the candidate gathered so
far together with the previous index. -/
theorem locateLoop_break {off total : Int} {b : Entry} {r2 : List Entry}
    (hb : off < b.offset) :
    ∀ (r1 : List Entry), (∀ en ∈ r1, en.offset ≤ off) →
    ∀ (cand : Option Entry) (i : Int),
      locateLoop off total (r1 ++ b :: r2) cand i
        = .found ((r1.getLast?).or cand) (i + r1.length - 1) := by
  intro r1
  induction r1 with
  | nil =>
    intro _ cand i
    simp only [List.nil_append, locateLoop, if_pos hb]
    simp
  | cons e t ih =>
    intro h1 cand i
    have he : e.offset ≤ off := h1 e (by simp)
    have hstep : (e :: t) ++ b :: r2 = e :: (t ++ b :: r2) := rfl
    rw [hstep]
    simp only [locateLoop]
    rw [if_neg (by omega)]
    rw [ih (fun x hx => h1 x (by simp [hx])) (some e) (i + 1)]
    rw [getLast?_cons_or]
    congr 1
    simp only [List.length_cons]
    push_cast
    ring

/-- Last element of a prefix, as an indexed lookup. -/
theorem take_getLast? {st : List Entry} {n : Nat} (h : n ≤ st.length) (h0 : 0 < n) :
    (st.take n).getLast? = st[n-1]? := by
  rw [List.getLast?_eq_getElem?, List.getElem?_take, List.length_take]
  rw [if_pos (by omega)]
  congr 1
  omega

/-- Every entry of a prefix of a sorted store whose `cntLe` entries come
first has offset at most `v`. -/
theorem take_cntLe_le {st : List Entry} (hs : st.Pairwise offLt) (v : Int) :
    ∀ en ∈ st.take (cntLe st v), en.offset ≤ v := by
  intro en hen
  obtain ⟨k, hk, hget⟩ := List.mem_iff_getElem.mp hen
  have hk' : k < cntLe st v := by
    have := List.length_take (cntLe st v) st
    omega
  have hklen : k < st.length := lt_of_lt_of_le hk' (cntLe_le_length st v)
  have : st[k] = en := by rw [← hget, List.getElem_take]
  rw [← this]
  exact (cntLe_iff hs v k hklen).mpr hk'

theorem locateEntry_fin (st : List Entry) (v : Int) :
    locateEntry st (.fin v) = locateLoop v st.length st none 0 := rfl

/-- Characterization of `locateEntry` at a finite offset over a sorted
store: the loop breaks right after the `cntLe` entries whose offset is at
most `v`, or runs to the final-candidate check when every entry qualifies. -/
theorem locate_fin_eq {st : List Entry} (hs : st.Pairwise offLt) (v : Int) :
    locateEntry st (.fin v) =
      if cntLe st v < st.length then
        .found ((st.take (cntLe st v)).getLast?) ((cntLe st v : Int) - 1)
      else locateFinal v st.length st.getLast? := by
  by_cases hc : cntLe st v < st.length
  · rw [if_pos hc]
    have hdecomp : st = st.take (cntLe st v) ++ st[cntLe st v] :: st.drop (cntLe st v + 1) := by
      conv_lhs => rw [← List.take_append_drop (cntLe st v) st]
      rw [List.drop_eq_getElem_cons hc]
    have hbig : v < st[cntLe st v].offset := by
      have h1 : ¬ (st[cntLe st v].offset ≤ v) := fun hcon =>
        absurd ((cntLe_iff hs v _ hc).mp hcon) (lt_irrefl _)
      omega
    have := @locateLoop_break _ st.length _ (st.drop (cntLe st v + 1)) hbig
      (st.take (cntLe st v)) (take_cntLe_le hs v) none 0
    rw [locateEntry_fin]
    conv_lhs => rw [hdecomp]
    rw [show ((st.take (cntLe st v) ++ st[cntLe st v] :: st.drop (cntLe st v + 1)).length : Int)
        = (st.length : Int) from by rw [← hdecomp]]
    rw [this, Option.or_none]
    congr 1
    have hlt : (st.take (cntLe st v)).length = cntLe st v := by
      rw [List.length_take]; omega
    rw [hlt]
    ring
  · rw [if_neg hc]
    have hall : ∀ en ∈ st, en.offset ≤ v := by
      intro en hen
      obtain ⟨k, hk, hget⟩ := List.mem_iff_getElem.mp hen
      rw [← hget]
      exact (cntLe_iff hs v k hk).mpr (by have := cntLe_le_length st v; omega)
    rw [locateEntry_fin]
    rw [locateLoop_all_le hall none 0, Option.or_none]

/-- Below the first entry's offset, `locateEntry` answers a found-result
whose `entry` field is absent and whose index is -1. -/
theorem locate_below {h : Entry} {t : List Entry} {v : Int} (hv : v < h.offset) :
    locateEntry (h :: t) (.fin v) = .found none (-1) := by
  simp [locateEntry, locateLoop, if_pos hv]

/-- A sorted store locates `v` at the entry `ej` of index `j` whenever
`ej.offset ≤ v` and the next entry starts past `v`. -/
theorem locate_mid {st : List Entry} (hs : st.Pairwise offLt) {j : Nat} {ej nx : Entry} {v : Int}
    (hj : st[j]? = some ej) (hle : ej.offset ≤ v)
    (hnx : st[j+1]? = some nx) (hv : v < nx.offset) :
    locateEntry st (.fin v) = .found (some ej) (j : Int) := by
  obtain ⟨hjlen, hjget⟩ := List.getElem?_eq_some_iff.mp hj
  obtain ⟨hj1len, hj1get⟩ := List.getElem?_eq_some_iff.mp hnx
  have hcnt : cntLe st v = j + 1 := by
    have h1 : j < cntLe st v := (cntLe_iff hs v j hjlen).mp (by rw [hjget]; exact hle)
    have h2 : ¬ (j + 1 < cntLe st v) := by
      intro hcon
      have := (cntLe_iff hs v (j+1) hj1len).mpr hcon
      rw [hj1get] at this
      omega
    omega
  rw [locate_fin_eq hs v, hcnt, if_pos (by omega)]
  rw [take_getLast? (by omega) (by omega)]
  simp only [Nat.add_sub_cancel]
  rw [hj]
  congr 1
  push_cast
  ring

/-- Every offset of a sorted store is at most the last entry's offset. -/
theorem all_le_of_last {st : List Entry} (hs : st.Pairwise offLt) {last : Entry}
    (hl : st.getLast? = some last) {v : Int} (hv : last.offset ≤ v) :
    ∀ en ∈ st, en.offset ≤ v := by
  intro en hen
  rw [List.getLast?_eq_getElem?] at hl
  obtain ⟨hlen, hlget⟩ := List.getElem?_eq_some_iff.mp hl
  obtain ⟨k, hk, hget⟩ := List.mem_iff_getElem.mp hen
  rcases Nat.lt_or_ge k (st.length - 1) with hklt | hkge
  · have := List.pairwise_iff_getElem.mp hs k (st.length - 1) hk hlen hklt
    simp only [offLt] at this
    rw [← hget]
    rw [hlget] at this
    omega
  · have : k = st.length - 1 := by omega
    subst this
    rw [← hget, hlget]
    exact hv

/-- A sorted store locates `v` at the last entry when `v` lies inside its
text range. -/
theorem locate_last_found {st : List Entry} (hs : st.Pairwise offLt) {last : Entry} {v : Int}
    (hl : st.getLast? = some last)
    (h1 : last.offset ≤ v) (h2 : v < last.offset + last.text.length) :
    locateEntry st (.fin v) = .found (some last) ((st.length : Int) - 1) := by
  rw [locateEntry_fin]
  rw [locateLoop_all_le (all_le_of_last hs hl h1) none 0, Option.or_none, hl]
  simp [locateFinal, if_pos h2]

/-- Past the end of the last entry's text range, a sorted store answers
`notFound`. -/
theorem locate_past {st : List Entry} (hs : st.Pairwise offLt) {last : Entry} {v : Int}
    (hl : st.getLast? = some last)
    (h2 : last.offset + last.text.length ≤ v) :
    locateEntry st (.fin v) = .notFound := by
  rw [locateEntry_fin]
  rw [locateLoop_all_le (all_le_of_last hs hl (by omega)) none 0, Option.or_none, hl]
  simp only [locateFinal]
  rw [if_neg (by omega)]

/-- Loop with a present candidate never crashes. -/
theorem locateLoop_some_ne_crash (off total : Int) :
    ∀ (rest : List Entry) (c : Entry) (i : Int),
      locateLoop off total rest (some c) i ≠ .crash := by
  intro rest
  induction rest with
  | nil =>
    intro c i
    simp only [locateLoop, locateFinal]
    split <;> simp
  | cons e t ih =>
    intro c i
    simp only [locateLoop]
    split
    · simp
    · exact ih e (i + 1)

/-- On a nonempty store, `locateEntry` never crashes. -/
theorem locate_ne_crash {st : List Entry} (hne : st ≠ []) (o : JOff) :
    locateEntry st o ≠ .crash := by
  cases o with
  | inf => simp [locateEntry]
  | fin v =>
    obtain ⟨h, t, rfl⟩ : ∃ h t, st = h :: t := by
      cases st with
      | nil => exact absurd rfl hne
      | cons h t => exact ⟨h, t, rfl⟩
    simp only [locateEntry, locateLoop]
    split
    · simp
    · exact locateLoop_some_ne_crash _ _ t h 1

/-- Index returned by a successful lookup: one less than the number of
entries whose offset is at most `v`. -/
theorem locate_found_idx {st : List Entry} (hs : st.Pairwise offLt) {v : Int}
    {oe : Option Entry} {idx : Int}
    (h : locateEntry st (.fin v) = .found oe idx) :
    idx = (cntLe st v : Int) - 1 := by
  rw [locate_fin_eq hs v] at h
  by_cases hc : cntLe st v < st.length
  · rw [if_pos hc] at h
    simp only [LocRes.found.injEq] at h
    exact h.2.symm
  · rw [if_neg hc] at h
    rcases hgl : st.getLast? with _ | last
    · rw [hgl] at h; simp [locateFinal] at h
    · rw [hgl] at h
      simp only [locateFinal] at h
      rcases lt_or_ge v (last.offset + (last.text.length : Int)) with hlt | hge
      · rw [if_pos hlt] at h
        simp only [LocRes.found.injEq] at h
        have h1 : cntLe st v ≤ st.length := cntLe_le_length st v
        have h2 : cntLe st v = st.length := by omega
        rw [h2]
        exact h.2.symm
      · rw [if_neg (by omega)] at h; simp at h

/-- A `notFound` answer at a finite offset means the offset is at or past
the end of the last entry's text. -/
theorem locate_notFound_inv {st : List Entry} (hs : st.Pairwise offLt) {v : Int}
    (h : locateEntry st (.fin v) = .notFound) :
    ∃ last, st.getLast? = some last ∧ last.offset + (last.text.length : Int) ≤ v := by
  rw [locate_fin_eq hs v] at h
  by_cases hc : cntLe st v < st.length
  · rw [if_pos hc] at h; simp at h
  · rw [if_neg hc] at h
    rcases hgl : st.getLast? with _ | last
    · rw [hgl] at h; simp [locateFinal] at h
    · rw [hgl] at h
      simp only [locateFinal] at h
      rcases lt_or_ge v (last.offset + (last.text.length : Int)) with hlt | hge
      · rw [if_pos hlt] at h; simp at h
      · exact ⟨last, rfl, by omega⟩

/-- A lookup that produced an entry pins the entry down: it sits at the
index returned, its offset is at most `v`, the next entry (when present)
starts past `v`, and when it is the last entry `v` lies inside its text. -/
theorem locate_found_some_inv {st : List Entry} (hs : st.Pairwise offLt) {v : Int}
    {en : Entry} {idx : Int}
    (h : locateEntry st (.fin v) = .found (some en) idx) :
    ∃ i : Nat, idx = (i : Int) ∧ st[i]? = some en ∧ en.offset ≤ v ∧
      (∀ nx, st[i+1]? = some nx → v < nx.offset) ∧
      (st[i+1]? = none → v < en.offset + en.text.length) := by
  rw [locate_fin_eq hs v] at h
  by_cases hc : cntLe st v < st.length
  · rw [if_pos hc] at h
    simp only [LocRes.found.injEq] at h
    obtain ⟨h1, h2⟩ := h
    by_cases h0 : cntLe st v = 0
    · rw [h0] at h1; simp at h1
    · rw [take_getLast? (by omega) (by omega)] at h1
      have hstep : cntLe st v - 1 + 1 = cntLe st v := by omega
      refine ⟨cntLe st v - 1, by omega, h1, ?_, ?_, ?_⟩
      · obtain ⟨hlen, hget⟩ := List.getElem?_eq_some_iff.mp h1
        rw [← hget]
        exact (cntLe_iff hs v _ hlen).mpr (by omega)
      · intro nx hnx
        rw [hstep] at hnx
        obtain ⟨hlen, hget⟩ := List.getElem?_eq_some_iff.mp hnx
        have hnot : ¬ (st[cntLe st v].offset ≤ v) := fun hcon =>
          absurd ((cntLe_iff hs v _ hlen).mp hcon) (lt_irrefl _)
        rw [hget] at hnot
        omega
      · intro hnone
        rw [hstep] at hnone
        rw [List.getElem?_eq_none_iff] at hnone
        omega
  · rw [if_neg hc] at h
    rcases hgl : st.getLast? with _ | last
    · rw [hgl] at h; simp [locateFinal] at h
    · rw [hgl] at h
      simp only [locateFinal] at h
      rcases lt_or_ge v (last.offset + (last.text.length : Int)) with hlt | hge
      · rw [if_pos hlt] at h
        simp only [LocRes.found.injEq, Option.some.injEq] at h
        obtain ⟨rfl, h2⟩ := h
        have hne : st ≠ [] := by
          intro hnil
          rw [hnil] at hgl
          simp at hgl
        have hlen1 : 1 ≤ st.length := by
          cases st with
          | nil => exact absurd rfl hne
          | cons a t => simp
        have hstep : st.length - 1 + 1 = st.length := by omega
        refine ⟨st.length - 1, by omega, ?_, ?_, ?_, ?_⟩
        · rw [← List.getLast?_eq_getElem?]
          exact hgl
        · have hcle : cntLe st v ≤ st.length := cntLe_le_length st v
          obtain ⟨hl2, hlget⟩ := List.getElem?_eq_some_iff.mp
            (List.getLast?_eq_getElem? st ▸ hgl)
          rw [← hlget]
          exact (cntLe_iff hs v _ hl2).mpr (by omega)
        · intro nx hnx
          rw [hstep] at hnx
          obtain ⟨hbad, _⟩ := List.getElem?_eq_some_iff.mp hnx
          omega
        · intro _
          exact hlt
      · rw [if_neg (by omega)] at h; simp at h

/-- Setting the element right after a prefix. -/
theorem set_append_middle (A : List Entry) (en tr : Entry) (B : List Entry) :
    (A ++ en :: B).set A.length tr = A ++ tr :: B := by
  induction A with
  | nil => rfl
  | cons a A ih => simpa using ih

/-- Lookup of the element right after a prefix. -/
theorem getElem?_append_middle (A : List Entry) (en : Entry) (B : List Entry) :
    (A ++ en :: B)[A.length]? = some en := by
  rw [List.getElem?_append_right (le_refl _)]
  simp

theorem offset_truncEntry (en : Entry) (o : Int) : (truncEntry en o).offset = en.offset := rfl

theorem offset_splitNewEntry (en : Entry) (o : Int) : (splitNewEntry en o).offset = o := rfl

/-- All of `B` starts past `o` when its head does. -/
theorem all_gt_of_head {B : List Entry} {o : Int} (hpB : B.Pairwise offLt)
    (hnx : ∀ nx, B.head? = some nx → o < nx.offset) :
    ∀ b ∈ B, o < b.offset := by
  intro b hb
  cases B with
  | nil => simp at hb
  | cons nx B' =>
    have h1 : o < nx.offset := hnx nx rfl
    rcases List.mem_cons.mp hb with rfl | hb'
    · exact h1
    · have h2 := (List.pairwise_cons.mp hpB).1 b hb'
      simp only [offLt] at h2
      omega

instance : IsTotal Entry fun a b => a.offset ≤ b.offset :=
  ⟨fun a b => le_total a.offset b.offset⟩

instance : IsTrans Entry fun a b => a.offset ≤ b.offset :=
  ⟨fun _ _ _ h1 h2 => le_trans h1 h2⟩

/-- Normal form of a split: with the store decomposed around the entry
being split and `o` strictly between that entry's offset and the next
entry's, push-then-sort equals inserting the new span right after the
truncated entry. -/
theorem splitEntryList_eq {A B : List Entry} {en : Entry} {o : Int}
    (hs : (A ++ en :: B).Pairwise offLt)
    (hlt : en.offset < o)
    (hnx : ∀ nx, B.head? = some nx → o < nx.offset) :
    splitEntryList (A ++ en :: B) A.length o
      = A ++ truncEntry en o :: splitNewEntry en o :: B := by
  obtain ⟨hpA, hpEB, hcross⟩ := List.pairwise_append.mp hs
  obtain ⟨henB, hpB⟩ := List.pairwise_cons.mp hpEB
  have hB : ∀ b ∈ B, o < b.offset := all_gt_of_head hpB hnx
  unfold splitEntryList
  rw [getElem?_append_middle]
  simp only [set_append_middle]
  apply List.eq_of_perm_of_sorted (r := offLt)
  · refine (List.perm_insertionSort _ _).trans ?_
    have h1 : (A ++ truncEntry en o :: B) ++ [splitNewEntry en o]
        = A ++ (truncEntry en o :: (B ++ [splitNewEntry en o])) := by simp
    rw [h1]
    refine List.Perm.append_left A ?_
    exact List.Perm.cons _ (List.perm_append_singleton _ B)
  · -- sortedness of the re-sorted array
    have hple : ((List.insertionSort (fun a b : Entry => a.offset ≤ b.offset)
        ((A ++ truncEntry en o :: B) ++ [splitNewEntry en o]))).Pairwise
        (fun a b : Entry => a.offset ≤ b.offset) :=
      List.sorted_insertionSort _ _
    have hperm := List.perm_insertionSort (fun a b : Entry => a.offset ≤ b.offset)
      ((A ++ truncEntry en o :: B) ++ [splitNewEntry en o])
    have hneX : ((A ++ truncEntry en o :: B) ++ [splitNewEntry en o]).Pairwise
        (fun a b => a.offset ≠ b.offset) := by
      rw [List.pairwise_append]
      refine ⟨?_, by simp, ?_⟩
      · rw [List.pairwise_append]
        refine ⟨hpA.imp (fun h => ?_), ?_, ?_⟩
        · simp only [offLt] at h; omega
        · rw [List.pairwise_cons]
          refine ⟨fun b hb => ?_, hpB.imp (fun h => ?_)⟩
          · have := henB b hb
            simp only [offLt] at this
            simp only [offset_truncEntry]
            omega
          · simp only [offLt] at h; omega
        · intro a ha b hb
          rcases List.mem_cons.mp hb with rfl | hb'
          · have := hcross a ha en (List.mem_cons_self en B)
            simp only [offLt] at this
            simp only [offset_truncEntry]
            omega
          · have := hcross a ha b (List.mem_cons_of_mem en hb')
            simp only [offLt] at this
            omega
      · intro a ha b hb
        rcases List.mem_singleton.mp hb with rfl
        simp only [offset_splitNewEntry]
        rcases List.mem_append.mp ha with haA | haT
        · have := hcross a haA en (List.mem_cons_self en B)
          simp only [offLt] at this
          omega
        · rcases List.mem_cons.mp haT with rfl | haB
          · simp only [offset_truncEntry]
            omega
          · have := hB a haB
            omega
    have hneS := (List.Perm.pairwise_iff (fun hxy => Ne.symm hxy) hperm).mpr hneX
    exact (hple.and hneS).imp (fun hab => lt_of_le_of_ne hab.1 hab.2)
  · -- sortedness of the explicit insertion
    show List.Pairwise offLt (A ++ truncEntry en o :: splitNewEntry en o :: B)
    rw [List.pairwise_append]
    refine ⟨hpA, ?_, ?_⟩
    · rw [List.pairwise_cons]
      constructor
      · intro b hb
        rcases List.mem_cons.mp hb with rfl | hb'
        · simp only [offLt, offset_truncEntry, offset_splitNewEntry]
          omega
        · have := henB b hb'  -- needs b ∈ B; hb' : b ∈ nw :: B? careful
          exact this
      · rw [List.pairwise_cons]
        refine ⟨fun b hb => ?_, hpB⟩
        have := hB b hb
        simp only [offLt, offset_splitNewEntry]
        omega
    · intro a ha b hb
      have haen := hcross a ha en (List.mem_cons_self en B)
      simp only [offLt] at haen
      rcases List.mem_cons.mp hb with rfl | hb'
      · simpa only [offLt, offset_truncEntry] using haen
      · rcases List.mem_cons.mp hb' with rfl | hb''
        · simp only [offLt, offset_splitNewEntry]
          omega
        · exact hcross a ha b (List.mem_cons_of_mem en hb'')

theorem toNat_sub_cast {o a : Int} (h : a < o) : (((o - a).toNat : Int)) = o - a :=
  Int.toNat_of_nonneg (by omega)

/-- Text length of the truncated entry. -/
theorem truncEntry_text_length (en : Entry) (o : Int) :
    (truncEntry en o).text.length = min (o - en.offset).toNat en.text.length := by
  simp [truncEntry]

/-- Text length of the new span. -/
theorem splitNewEntry_text_length (en : Entry) (o : Int) :
    (splitNewEntry en o).text.length = en.text.length - (o - en.offset).toNat := by
  simp [splitNewEntry]

/-- Splitting preserves the store invariant. -/
theorem split_wf {A B : List Entry} {en : Entry} {o : Int}
    (hwf : WF (A ++ en :: B)) (hlt : en.offset < o)
    (hnx : ∀ nx, B.head? = some nx → o < nx.offset) :
    WF (A ++ truncEntry en o :: splitNewEntry en o :: B) := by
  have hk := toNat_sub_cast hlt
  unfold WF at *
  rw [List.chain'_append] at hwf ⊢
  obtain ⟨hA, hEB, hlink⟩ := hwf
  rw [List.chain'_cons'] at hEB
  obtain ⟨henH, hBchain⟩ := hEB
  refine ⟨hA, ?_, ?_⟩
  · rw [List.chain'_cons']
    constructor
    · intro y hy
      simp only [List.head?_cons, Option.mem_def, Option.some.injEq] at hy
      subst hy
      constructor
      · show (truncEntry en o).offset < o
        simpa [truncEntry] using hlt
      · show (truncEntry en o).offset + ((truncEntry en o).text.length : Int) ≤ o
        rw [truncEntry_text_length]
        simp only [truncEntry]
        omega
    · rw [List.chain'_cons']
      refine ⟨?_, hBchain⟩
      intro y hy
      have hR := henH y hy
      obtain ⟨hR1, hR2⟩ := hR
      have hoy : o < y.offset := hnx y (by simpa using hy)
      constructor
      · exact hoy
      · show o + (((splitNewEntry en o).text.length : Int)) ≤ y.offset
        rw [splitNewEntry_text_length]
        omega
  · intro x hx y hy
    simp only [List.head?_cons, Option.mem_def, Option.some.injEq] at hy
    subst hy
    have := hlink x hx en (by simp)
    obtain ⟨h1, h2⟩ := this
    exact ⟨h1, h2⟩

/-- Splitting preserves the concatenation of the texts. -/
theorem split_concat (A B : List Entry) (en : Entry) (o : Int) :
    concatTexts (A ++ truncEntry en o :: splitNewEntry en o :: B)
      = concatTexts (A ++ en :: B) := by
  simp only [concatTexts, List.map_append, List.map_cons, List.flatten_append,
    List.flatten_cons, truncEntry, splitNewEntry]
  rw [← List.append_assoc (en.text.take (o - en.offset).toNat)]
  rw [List.take_append_drop]

/-- Splitting adds exactly one entry. -/
theorem split_length (A B : List Entry) (en : Entry) (o : Int) :
    (A ++ truncEntry en o :: splitNewEntry en o :: B).length
      = (A ++ en :: B).length + 1 := by
  simp
  omega

/-- Splitting keeps the first entry's offset. -/
theorem split_head_offset (A B : List Entry) (en : Entry) (o : Int) :
    ((A ++ truncEntry en o :: splitNewEntry en o :: B).head?).map Entry.offset
      = ((A ++ en :: B).head?).map Entry.offset := by
  cases A with
  | nil => simp [truncEntry]
  | cons a A' => simp

/-- Splitting keeps the one-past-the-end document offset, given that a
split of the final entry lands strictly inside its text. -/
theorem split_docEnd (A B : List Entry) (en : Entry) (o : Int)
    (hlt : en.offset < o)
    (hin : B = [] → o < en.offset + en.text.length) :
    docEnd (A ++ truncEntry en o :: splitNewEntry en o :: B)
      = docEnd (A ++ en :: B) := by
  have hk := toNat_sub_cast hlt
  cases B with
  | nil =>
    have hio := hin rfl
    unfold docEnd
    rw [List.getLast?_append, List.getLast?_append]
    simp only [List.getLast?_cons_cons, List.getLast?_singleton]
    simp only [Option.or_some]
    rw [splitNewEntry_text_length]
    simp only [splitNewEntry]
    omega
  | cons nx B' =>
    unfold docEnd
    rw [List.getLast?_append, List.getLast?_append]
    simp only [List.getLast?_cons_cons]

/-- Every original entry has, after a split, an entry at the same offset
with the same line, column and class list. -/
theorem split_corr_fwd (A B : List Entry) (en : Entry) (o : Int) :
    ∀ e ∈ A ++ en :: B, ∃ e' ∈ A ++ truncEntry en o :: splitNewEntry en o :: B,
      e'.offset = e.offset ∧ e'.line = e.line ∧ e'.column = e.column ∧
      e'.classes = e.classes := by
  intro e he
  rcases List.mem_append.mp he with hA | hEB
  · exact ⟨e, List.mem_append_left _ hA, rfl, rfl, rfl, rfl⟩
  · rcases List.mem_cons.mp hEB with rfl | hB
    · refine ⟨truncEntry e o, ?_, rfl, rfl, rfl, rfl⟩
      exact List.mem_append_right _ (by simp)
    · exact ⟨e, List.mem_append_right _ (by simp [hB]), rfl, rfl, rfl, rfl⟩

/-- Every entry after a split carries the class list of some original
entry. -/
theorem split_corr_bwd (A B : List Entry) (en : Entry) (o : Int) :
    ∀ e' ∈ A ++ truncEntry en o :: splitNewEntry en o :: B,
      ∃ e ∈ A ++ en :: B, e'.classes = e.classes := by
  intro e' he'
  rcases List.mem_append.mp he' with hA | hT
  · exact ⟨e', List.mem_append_left _ hA, rfl⟩
  · rcases List.mem_cons.mp hT with rfl | hT'
    · exact ⟨en, List.mem_append_right _ (by simp), rfl⟩
    · rcases List.mem_cons.mp hT' with rfl | hB
      · exact ⟨en, List.mem_append_right _ (by simp), rfl⟩
      · exact ⟨e', List.mem_append_right _ (by simp [hB]), rfl⟩

/-- A found-result with an absent entry arises only below every entry. -/
theorem locate_found_none_inv {st : List Entry} (hs : st.Pairwise offLt) {v : Int} {idx : Int}
    (h : locateEntry st (.fin v) = .found none idx) :
    ∀ e ∈ st, v < e.offset := by
  rw [locate_fin_eq hs v] at h
  by_cases hc : cntLe st v < st.length
  · rw [if_pos hc] at h
    simp only [LocRes.found.injEq] at h
    obtain ⟨h1, _⟩ := h
    have h0 : cntLe st v = 0 := by
      by_contra hne
      rw [take_getLast? (by omega) (by omega)] at h1
      rw [List.getElem?_eq_getElem (by omega)] at h1
      simp at h1
    have hz : ∀ e ∈ st, ¬ (decide (e.offset ≤ v) = true) :=
      List.countP_eq_zero.mp h0
    intro e he
    have h2 := hz e he
    simp only [decide_eq_true_eq] at h2
    omega
  · rw [if_neg hc] at h
    rcases hgl : st.getLast? with _ | last
    · rw [hgl] at h; simp [locateFinal] at h
    · rw [hgl] at h
      simp only [locateFinal] at h
      rcases lt_or_ge v (last.offset + (last.text.length : Int)) with hlt | hge
      · rw [if_pos hlt] at h; simp at h
      · rw [if_neg (by omega)] at h; simp at h

/-- On the empty store only the sentinel passes the boundary code. -/
theorem ensureBoundary_nil {o : JOff} {st' : List Entry}
    (h : ensureBoundary [] o = some st') : o = .inf ∧ st' = [] := by
  cases o with
  | inf =>
    refine ⟨rfl, ?_⟩
    simp only [ensureBoundary, locateEntry] at h
    exact (Option.some.injEq _ _ ▸ h).symm
  | fin v =>
    simp only [ensureBoundary, locateEntry, locateLoop, locateFinal] at h
    exact Option.noConfusion h

/-- A successful boundary pass either leaves the store alone (and the
boundary is then aligned on it) or performs one split in normal form. -/
theorem ensureBoundary_inv {st st' : List Entry} (hwf : WF st) {o : JOff}
    (h : ensureBoundary st o = some st') :
    (st' = st ∧ Aligned st o) ∨
    ∃ A en B v, o = .fin v ∧ st = A ++ en :: B ∧ en.offset < v ∧
      (∀ nx, B.head? = some nx → v < nx.offset) ∧
      (B = [] → v < en.offset + en.text.length) ∧
      st' = A ++ truncEntry en v :: splitNewEntry en v :: B := by
  cases o with
  | inf =>
    left
    simp only [ensureBoundary, locateEntry] at h
    exact ⟨(Option.some.injEq _ _ ▸ h).symm, Or.inl rfl⟩
  | fin v =>
    unfold ensureBoundary at h
    cases hloc : locateEntry st (.fin v) with
    | crash => rw [hloc] at h; simp at h
    | notFound =>
      rw [hloc] at h
      simp only [Option.some.injEq] at h
      left
      refine ⟨h.symm, Or.inr ⟨v, rfl, Or.inl ?_⟩⟩
      obtain ⟨last, hgl, hle⟩ := locate_notFound_inv hwf.sorted hloc
      unfold docEnd
      rw [hgl]
      exact hle
    | found oe idx =>
      rcases oe with _ | en
      · rw [hloc] at h; simp at h
      · rw [hloc] at h
        simp only [] at h
        by_cases heq : en.offset = v
        · rw [if_neg (by simp [heq])] at h
          simp only [Option.some.injEq] at h
          obtain ⟨i, _, hget, _, _, _⟩ := locate_found_some_inv hwf.sorted hloc
          left
          refine ⟨h.symm, Or.inr ⟨v, rfl, Or.inr ⟨en, ?_, heq⟩⟩⟩
          obtain ⟨hlen, hgeti⟩ := List.getElem?_eq_some_iff.mp hget
          exact hgeti ▸ List.getElem_mem hlen
        · rw [if_pos (by simp [heq])] at h
          simp only [Option.some.injEq] at h
          obtain ⟨i, hidx, hget, hle, hnxt, hlast⟩ := locate_found_some_inv hwf.sorted hloc
          obtain ⟨hlen, hgeti⟩ := List.getElem?_eq_some_iff.mp hget
          right
          have hdec : st = st.take i ++ en :: st.drop (i + 1) := by
            conv_lhs => rw [← List.take_append_drop i st]
            rw [List.drop_eq_getElem_cons hlen, hgeti]
          refine ⟨st.take i, en, st.drop (i + 1), v, rfl, hdec, ?_, ?_, ?_, ?_⟩
          · omega
          · intro nx hnx
            refine hnxt nx ?_
            rw [← hnx, List.head?_eq_getElem?, List.getElem?_drop]
          · intro hnil
            refine hlast ?_
            rw [List.getElem?_eq_none_iff]
            have := List.drop_eq_nil_iff.mp hnil
            omega
          · have hAlen : (st.take i).length = i := by
              rw [List.length_take]
              omega
            have := @splitEntryList_eq (st.take i) (st.drop (i + 1))
              en v (hdec ▸ hwf.sorted)
              (by omega)
              (fun nx hnx => hnxt nx (by rw [← hnx, List.head?_eq_getElem?, List.getElem?_drop]))
            rw [← h]
            rw [hAlen] at this
            have hi : idx.toNat = i := by omega
            rw [hi]
            conv_lhs => rw [hdec]
            exact this

theorem storeStep_refl {st : List Entry} (hwf : WF st) : StoreStep st st :=
  ⟨hwf, rfl, le_refl _, rfl, rfl,
    fun e he => ⟨e, he, rfl, rfl, rfl, rfl⟩, fun e he => ⟨e, he, rfl⟩⟩

theorem storeStep_trans {s1 s2 s3 : List Entry}
    (h12 : StoreStep s1 s2) (h23 : StoreStep s2 s3) : StoreStep s1 s3 := by
  obtain ⟨w2, c2, l2, h2, d2, f2, b2⟩ := h12
  obtain ⟨w3, c3, l3, h3, d3, f3, b3⟩ := h23
  refine ⟨w3, c3.trans c2, le_trans l2 l3, h2.trans h3, d3.trans d2, ?_, ?_⟩
  · intro e he
    obtain ⟨e2, he2, ho, hl, hc, hcl⟩ := f2 e he
    obtain ⟨e3, he3, ho3, hl3, hc3, hcl3⟩ := f3 e2 he2
    exact ⟨e3, he3, ho3.trans ho, hl3.trans hl, hc3.trans hc, hcl3.trans hcl⟩
  · intro e3 he3
    obtain ⟨e2, he2, hcl⟩ := b3 e3 he3
    obtain ⟨e1, he1, hcl2⟩ := b2 e2 he2
    exact ⟨e1, he1, hcl.trans hcl2⟩

/-- A successful boundary pass steps the store. -/
theorem ensureBoundary_step {st st' : List Entry} (hwf : WF st) {o : JOff}
    (h : ensureBoundary st o = some st') : StoreStep st st' := by
  rcases ensureBoundary_inv hwf h with ⟨rfl, _⟩ |
    ⟨A, en, B, v, _, hdec, hlt, hnx, hin, hsplit⟩
  · exact storeStep_refl hwf
  · subst hdec
    subst hsplit
    refine ⟨split_wf hwf hlt hnx, split_concat A B en v, ?_,
      (split_head_offset A B en v).symm, split_docEnd A B en v hlt hin,
      split_corr_fwd A B en v, split_corr_bwd A B en v⟩
    rw [split_length A B en v]
    omega

/-- The boundary just handled is aligned on the resulting store. -/
theorem ensureBoundary_aligned {st st' : List Entry} (hwf : WF st) {o : JOff}
    (h : ensureBoundary st o = some st') : Aligned st' o := by
  rcases ensureBoundary_inv hwf h with ⟨rfl, hal⟩ |
    ⟨A, en, B, v, rfl, hdec, hlt, hnx, hin, hsplit⟩
  · exact hal
  · right
    refine ⟨v, rfl, Or.inr ⟨splitNewEntry en v, ?_, rfl⟩⟩
    rw [hsplit]
    exact List.mem_append_right _ (by simp)

/-- Alignment survives a store step. -/
theorem aligned_step {st st' : List Entry} (hstep : StoreStep st st') {o : JOff}
    (hal : Aligned st o) : Aligned st' o := by
  obtain ⟨_, _, _, _, hd, hfwd, _⟩ := hstep
  rcases hal with rfl | ⟨v, rfl, hcase⟩
  · exact Or.inl rfl
  · right
    refine ⟨v, rfl, ?_⟩
    rcases hcase with hdoc | ⟨e, he, hoff⟩
    · left
      rw [hd]
      exact hdoc
    · right
      obtain ⟨e', he', ho, _, _, _⟩ := hfwd e he
      exact ⟨e', he', ho.trans hoff⟩

/-- An aligned boundary is left untouched by the boundary code. -/
theorem ensureBoundary_noop {st : List Entry} (hwf : WF st) {o : JOff}
    (hal : Aligned st o) (hne : st ≠ [] ∨ o = .inf) :
    ensureBoundary st o = some st := by
  rcases hal with rfl | ⟨v, rfl, hcase⟩
  · rfl
  · have hne' : st ≠ [] := by
      rcases hne with h | h
      · exact h
      · cases h
    rcases hcase with hd | ⟨e, he, hoff⟩
    · obtain ⟨last, hgl⟩ := Option.isSome_iff_exists.mp (List.getLast?_isSome.mpr hne')
      have hd' : last.offset + (last.text.length : Int) ≤ v := by
        unfold docEnd at hd
        rw [hgl] at hd
        exact hd
      have hloc := locate_past hwf.sorted hgl hd'
      unfold ensureBoundary
      rw [hloc]
    · cases hloc : locateEntry st (.fin v) with
      | crash => exact absurd hloc (locate_ne_crash hne' _)
      | notFound =>
        unfold ensureBoundary
        rw [hloc]
      | found oe idx =>
        rcases oe with _ | en
        · have := locate_found_none_inv hwf.sorted hloc e he
          omega
        · obtain ⟨i, hidx, hget, hle, hnxt, hlast⟩ :=
            locate_found_some_inv hwf.sorted hloc
          have hidxc := locate_found_idx hwf.sorted hloc
          obtain ⟨j, hj, hjget⟩ := List.mem_iff_getElem.mp he
          have hjc : j < cntLe st v := by
            refine (cntLe_iff hwf.sorted v j hj).mp ?_
            rw [hjget]
            omega
          obtain ⟨hleni, hgeti⟩ := List.getElem?_eq_some_iff.mp hget
          have hij : j ≤ i := by omega
          have hoffle : e.offset ≤ en.offset := by
            rcases Nat.lt_or_ge j i with hlt' | hge'
            · have := List.pairwise_iff_getElem.mp hwf.sorted j i hj hleni hlt'
              simp only [offLt] at this
              rw [hjget, hgeti] at this
              omega
            · have : j = i := by omega
              subst this
              rw [← hjget, hgeti]
          have heq : en.offset = v := by omega
          unfold ensureBoundary
          rw [hloc]
          simp only []
          rw [if_neg (by simp [heq])]

/-- Splitting a span runs its two boundary passes in order. -/
theorem ensureExactSpan_bind {st st' : List Entry} {s e : JOff}
    (h : ensureExactSpan st s e = some st') :
    ∃ st1, ensureBoundary st s = some st1 ∧ ensureBoundary st1 e = some st' := by
  unfold ensureExactSpan at h
  cases h1 : ensureBoundary st s with
  | none => rw [h1] at h; simp at h
  | some st1 =>
    rw [h1] at h
    exact ⟨st1, rfl, h⟩

/-- A successful `ensureExactSpan` steps the store. -/
theorem ensureExactSpan_step {st st' : List Entry} {s e : JOff} (hwf : WF st)
    (h : ensureExactSpan st s e = some st') : StoreStep st st' := by
  obtain ⟨st1, h1, h2⟩ := ensureExactSpan_bind h
  have hs1 := ensureBoundary_step hwf h1
  exact storeStep_trans hs1 (ensureBoundary_step hs1.1 h2)

/-- After a successful `ensureExactSpan` both boundaries are aligned. -/
theorem ensureExactSpan_aligned {st st' : List Entry} {s e : JOff} (hwf : WF st)
    (h : ensureExactSpan st s e = some st') :
    Aligned st' s ∧ Aligned st' e := by
  obtain ⟨st1, h1, h2⟩ := ensureExactSpan_bind h
  have hs1 := ensureBoundary_step hwf h1
  refine ⟨aligned_step (ensureBoundary_step hs1.1 h2) (ensureBoundary_aligned hwf h1),
    ensureBoundary_aligned hs1.1 h2⟩

/-- Aligned boundaries make the whole splitter a no-op. -/
theorem ensureExactSpan_noop {st : List Entry} {s e : JOff} (hwf : WF st)
    (hs : Aligned st s) (he : Aligned st e)
    (hne : st ≠ [] ∨ (s = .inf ∧ e = .inf)) :
    ensureExactSpan st s e = some st := by
  have h1 : ensureBoundary st s = some st := by
    refine ensureBoundary_noop hwf hs ?_
    rcases hne with h | h
    · exact Or.inl h
    · exact Or.inr h.1
  have h2 : ensureBoundary st e = some st := by
    refine ensureBoundary_noop hwf he ?_
    rcases hne with h | h
    · exact Or.inl h
    · exact Or.inr h.2
  unfold ensureExactSpan
  rw [h1]
  exact h2

/-- Idempotence of the splitter, as one lemma shared below. -/
theorem ensureExactSpan_idem {st st' : List Entry} {s e : JOff} (hwf : WF st)
    (h : ensureExactSpan st s e = some st') :
    ensureExactSpan st' s e = some st' := by
  have hw' : WF st' := (ensureExactSpan_step hwf h).1
  obtain ⟨has', hae'⟩ := ensureExactSpan_aligned hwf h
  by_cases hnil : st' = []
  · subst hnil
    obtain ⟨st1, h1, h2⟩ := ensureExactSpan_bind h
    have hlen1 : st1.length = 0 := by
      have hb := (ensureBoundary_step (ensureBoundary_step hwf h1).1 h2).2.2.1
      simp only [List.length_nil] at hb
      omega
    have hst1 : st1 = [] := List.length_eq_zero.mp hlen1
    subst hst1
    obtain ⟨rfl, -⟩ := ensureBoundary_nil h2
    have hlen0 : st.length = 0 := by
      have ha := (ensureBoundary_step hwf h1).2.2.1
      simp only [List.length_nil] at ha
      omega
    have hst : st = [] := List.length_eq_zero.mp hlen0
    subst hst
    obtain ⟨rfl, -⟩ := ensureBoundary_nil h1
    rfl
  · exact ensureExactSpan_noop hw' has' hae' (Or.inl hnil)

/-- C1 (amended): on a well-formed store, `locateEntry` returns the entry
whose half-open text range contains the offset whenever one exists; it
answers "not found" at or past the end of the last entry's range and at
the `Infinity` sentinel; and below the first entry's offset (in particular
at negative offsets with zero bias) it returns a found-result whose entry
is absent rather than "not found". -/
theorem C1_locateEntry_amended {st : List Entry} (hwf : WF st) :
    (∀ (j : Nat) (en : Entry) (v : Int), st[j]? = some en → en.offset ≤ v →
      v < en.offset + en.text.length → locateEntry st (.fin v) = .found (some en) (j : Int)) ∧
    (∀ (last : Entry) (v : Int), st.getLast? = some last →
      last.offset + last.text.length ≤ v → locateEntry st (.fin v) = .notFound) ∧
    locateEntry st .inf = .notFound ∧
    (∀ (h0 : Entry) (t : List Entry) (v : Int), st = h0 :: t → v < h0.offset →
      locateEntry st (.fin v) = .found none (-1)) := by
  refine ⟨?_, ?_, rfl, ?_⟩
  · intro j en v hj hle hin
    obtain ⟨hjlen, hjget⟩ := List.getElem?_eq_some_iff.mp hj
    cases hnxt : st[j+1]? with
    | some nx =>
      obtain ⟨hnlen, hnget⟩ := List.getElem?_eq_some_iff.mp hnxt
      have hp := List.pairwise_iff_getElem.mp hwf.pairwise j (j+1) hjlen hnlen (by omega)
      rw [hjget, hnget] at hp
      exact locate_mid hwf.sorted hj hle hnxt (by omega)
    | none =>
      have hjlast : j = st.length - 1 := by
        rw [List.getElem?_eq_none_iff] at hnxt
        omega
      have hgl : st.getLast? = some en := by
        rw [List.getLast?_eq_getElem?, ← hjlast]
        exact hj
      have := locate_last_found hwf.sorted hgl hle hin
      rw [this]
      congr 1
      omega
  · intro last v hgl hge
    exact locate_past hwf.sorted hgl hge
  · intro h0 t v hst hv
    subst hst
    exact locate_below hv

/-- C1 counterexample: the claim says a negative offset yields "not
found", but on the store of one segment "ab" at offset 0 the offset -1
yields a found-result with an absent entry instead. -/
theorem C1_counterexample :
    locateEntry [⟨0, some 1, 1, ['a', 'b'], []⟩] (.fin (-1)) = .found none (-1) ∧
    (LocRes.found none (-1)) ≠ LocRes.notFound := by
  constructor
  · decide
  · decide

/-- C1 witness: the amended characterization evaluated on the store of a
single segment "ab" at offset 0. -/
theorem C1_witness :
    locateEntry [⟨0, some 1, 1, ['a', 'b'], []⟩] (.fin 1)
      = .found (some ⟨0, some 1, 1, ['a', 'b'], []⟩) 0 ∧
    locateEntry [⟨0, some 1, 1, ['a', 'b'], []⟩] (.fin 2) = .notFound ∧
    locateEntry [⟨0, some 1, 1, ['a', 'b'], []⟩] .inf = .notFound := by
  refine ⟨?_, ?_, (C1_locateEntry_amended (by decide)).2.2.1⟩
  · exact (C1_locateEntry_amended (by decide)).1 0 ⟨0, some 1, 1, ['a', 'b'], []⟩ 1
      (by decide) (by decide) (by decide)
  · exact (C1_locateEntry_amended (by decide)).2.1 ⟨0, some 1, 1, ['a', 'b'], []⟩ 2
      (by decide) (by decide)

/-- C2 (amended): after a completed `ensureExactSpan(start, end)` some
segment begins exactly at each boundary that is a finite offset at or
after the first segment's offset and before the document end; a finite
boundary below the first segment's offset instead makes the call fail
with a TypeError (no store results at all). -/
theorem C2_ensureExactSpan_amended {st : List Entry} {h0 : Entry} {t : List Entry}
    {s e : JOff} (hwf : WF st) (hst : st = h0 :: t) :
    (∀ v, s = .fin v → v < h0.offset → ensureExactSpan st s e = none) ∧
    (∀ st', ensureExactSpan st s e = some st' →
      (∀ v, s = .fin v → v < docEnd st → ∃ en ∈ st', en.offset = v) ∧
      (∀ v, e = .fin v → v < docEnd st → ∃ en ∈ st', en.offset = v)) := by
  constructor
  · intro v hs hv
    subst hs
    subst hst
    have hb : ensureBoundary (h0 :: t) (.fin v) = none := by
      unfold ensureBoundary
      rw [locate_below hv]
    unfold ensureExactSpan
    rw [hb]
  · intro st' hsucc
    have hstep := ensureExactSpan_step hwf hsucc
    obtain ⟨has, hae⟩ := ensureExactSpan_aligned hwf hsucc
    have hdend : docEnd st' = docEnd st := hstep.2.2.2.2.1
    constructor
    · intro v hs hvlt
      subst hs
      rcases has with h | ⟨v', heq, hcase⟩
      · cases h
      · cases heq
        rcases hcase with hd | hfound
        · rw [hdend] at hd
          omega
        · exact hfound
    · intro v he hvlt
      subst he
      rcases hae with h | ⟨v', heq, hcase⟩
      · cases h
      · cases heq
        rcases hcase with hd | hfound
        · rw [hdend] at hd
          omega
        · exact hfound

/-- C2 counterexample: the claim promises a segment beginning at each
in-document boundary, yet `ensureExactSpan(-1, 1)` on the store of one
segment "ab" at offset 0 throws while 1 is an in-document boundary — no
resulting store exists, let alone one with a segment at offset 1. -/
theorem C2_counterexample :
    ensureExactSpan [⟨0, some 1, 1, ['a', 'b'], []⟩] (.fin (-1)) (.fin 1) = none ∧
    ¬ ∃ st', ensureExactSpan [⟨0, some 1, 1, ['a', 'b'], []⟩] (.fin (-1)) (.fin 1)
      = some st' := by
  refine ⟨by decide, ?_⟩
  rintro ⟨st', hst'⟩
  rw [show ensureExactSpan [⟨0, some 1, 1, ['a', 'b'], []⟩] (.fin (-1)) (.fin 1) = none
    from by decide] at hst'
  exact Option.noConfusion hst'

/-- C2 witness: on the store of one segment "ab" at offset 0, the call
`ensureExactSpan(-1, 1)` fails, and the call `ensureExactSpan(1, 2)`
succeeds with a segment starting at offset 1. -/
theorem C2_witness :
    ensureExactSpan [⟨0, some 1, 1, ['a', 'b'], []⟩] (.fin (-1)) (.fin 2) = none ∧
    ∃ en ∈ ([⟨0, some 1, 1, ['a'], []⟩, ⟨1, some 1, 2, ['b'], []⟩] : List Entry),
      en.offset = 1 := by
  constructor
  · exact (C2_ensureExactSpan_amended (by decide) rfl).1 (-1) rfl (by decide)
  · have h2 := (@C2_ensureExactSpan_amended
      [⟨0, some 1, 1, ['a', 'b'], []⟩] ⟨0, some 1, 1, ['a', 'b'], []⟩ []
      (.fin 1) (.fin 2)
      (by decide) rfl).2
      [⟨0, some 1, 1, ['a'], []⟩, ⟨1, some 1, 2, ['b'], []⟩] (by decide)
    exact h2.1 1 rfl (by decide)

/-- C3: a split performed by `ensureExactSpan` — the entry at a given
position split at an offset strictly inside its slot — preserves the
concatenation of all segment texts, and the offsets remain strictly
increasing (hence unique) immediately after the insertion; consequently a
completed `ensureExactSpan` preserves the concatenation and strict
ordering as well. -/
theorem C3_split_preserves {st : List Entry} (hwf : WF st) :
    (∀ (A B : List Entry) (en : Entry) (o : Int), st = A ++ en :: B →
      en.offset < o → (∀ nx, B.head? = some nx → o < nx.offset) →
      concatTexts (splitEntryList st A.length o) = concatTexts st ∧
      (splitEntryList st A.length o).Chain' (fun a b => a.offset < b.offset)) ∧
    (∀ (s e : JOff) (st' : List Entry), ensureExactSpan st s e = some st' →
      concatTexts st' = concatTexts st ∧
      st'.Chain' (fun a b => a.offset < b.offset)) := by
  constructor
  · intro A B en o hdec hlt hnx
    subst hdec
    rw [splitEntryList_eq hwf.sorted hlt hnx]
    refine ⟨split_concat A B en o, ?_⟩
    have := split_wf hwf hlt hnx
    exact this.imp fun a b hab => hab.1
  · intro s e st' hsucc
    have hstep := ensureExactSpan_step hwf hsucc
    exact ⟨hstep.2.1, hstep.1.imp fun a b hab => hab.1⟩

/-- C3 witness: splitting the single segment "ab" at offset 1 keeps the
text "ab" and strictly increasing offsets, and so does the surrounding
`ensureExactSpan(1, 2)` call. -/
theorem C3_witness :
    (concatTexts (splitEntryList [⟨0, some 1, 1, ['a', 'b'], []⟩] 0 1)
        = concatTexts [⟨0, some 1, 1, ['a', 'b'], []⟩] ∧
      (splitEntryList [⟨0, some 1, 1, ['a', 'b'], []⟩] 0 1).Chain'
        (fun a b => a.offset < b.offset)) ∧
    (concatTexts [⟨0, some 1, 1, ['a'], []⟩, ⟨1, some 1, 2, ['b'], []⟩]
        = concatTexts [⟨0, some 1, 1, ['a', 'b'], []⟩] ∧
      ([⟨0, some 1, 1, ['a'], []⟩, ⟨1, some 1, 2, ['b'], []⟩] : List Entry).Chain'
        (fun a b => a.offset < b.offset)) := by
  constructor
  · exact (C3_split_preserves (by decide)).1 [] [] ⟨0, some 1, 1, ['a', 'b'], []⟩ 1 rfl
      (by decide) (by intro nx hnx; cases hnx)
  · exact (C3_split_preserves (by decide)).2 (.fin 1) (.fin 2)
      [⟨0, some 1, 1, ['a'], []⟩, ⟨1, some 1, 2, ['b'], []⟩] (by decide)

/-- C6: `offsetToLineColumn` returns the located entry's line and its
column advanced by the offset difference; when nothing is located it
clamps to the last segment's line and to its column advanced by at most
the text length. -/
theorem C6_offsetToLineColumn (st : List Entry) :
    (∀ (en : Entry) (i : Int) (v : Int),
      locateEntry st (.fin v) = .found (some en) i →
      offsetToLineColumn st (.fin v) = some ⟨en.line, en.column + (v - en.offset)⟩) ∧
    (∀ (last : Entry) (v : Int),
      locateEntry st (.fin v) = .notFound → st.getLast? = some last →
      offsetToLineColumn st (.fin v)
        = some ⟨last.line, last.column + min (last.text.length : Int) (v - last.offset)⟩) := by
  constructor
  · intro en i v hloc
    unfold offsetToLineColumn
    rw [hloc]
  · intro last v hloc hgl
    unfold offsetToLineColumn
    rw [hloc, hgl]
    rfl

/-- C6 witness: on the two-segment store "a"@0, "b"@1, offset 1 maps to
line 1 column 2, and the past-the-end offset 5 clamps to line 1 column 3. -/
theorem C6_witness :
    offsetToLineColumn [⟨0, some 1, 1, ['a'], []⟩, ⟨1, some 1, 2, ['b'], []⟩] (.fin 1)
      = some ⟨some 1, 2⟩ ∧
    offsetToLineColumn [⟨0, some 1, 1, ['a'], []⟩, ⟨1, some 1, 2, ['b'], []⟩] (.fin 5)
      = some ⟨some 1, 3⟩ := by
  constructor
  · have := (C6_offsetToLineColumn
      [⟨0, some 1, 1, ['a'], []⟩, ⟨1, some 1, 2, ['b'], []⟩]).1
      ⟨1, some 1, 2, ['b'], []⟩ 1 1 (by decide)
    rw [this]
    rfl
  · have := (C6_offsetToLineColumn
      [⟨0, some 1, 1, ['a'], []⟩, ⟨1, some 1, 2, ['b'], []⟩]).2
      ⟨1, some 1, 2, ['b'], []⟩ 5 (by decide) (by decide)
    rw [this]
    rfl

/-- C7: `ensureExactSpan` is idempotent — a second call with the same
arguments right after a completed first call changes nothing. -/
theorem C7_ensureExactSpan_idem {st st' : List Entry} {s e : JOff} (hwf : WF st)
    (h : ensureExactSpan st s e = some st') :
    ensureExactSpan st' s e = some st' :=
  ensureExactSpan_idem hwf h

/-- C7 witness: splitting "ab" at (1, 2) again on its own output changes
nothing. -/
theorem C7_witness :
    ensureExactSpan [⟨0, some 1, 1, ['a'], []⟩, ⟨1, some 1, 2, ['b'], []⟩]
      (.fin 1) (.fin 2)
      = some [⟨0, some 1, 1, ['a'], []⟩, ⟨1, some 1, 2, ['b'], []⟩] :=
  @C7_ensureExactSpan_idem [⟨0, some 1, 1, ['a', 'b'], []⟩]
    [⟨0, some 1, 1, ['a'], []⟩, ⟨1, some 1, 2, ['b'], []⟩] (.fin 1) (.fin 2)
    (by decide) (by decide)

/-- C8: the Index Builder does not fail on an unresolvable line id — it
silently records the NaN line value (modelled `none`) on the built
segment, contradicting the fail-fast requirement. -/
theorem C8_initializeEntryPoints_silent_nan :
    initializeEntryPoints 0 [⟨none, [⟨['a', 'b'], []⟩]⟩]
      = [⟨0, none, 1, ['a', 'b'], []⟩] := by
  decide

/-- C10: below the first segment's offset `locateEntry` answers a
found-result whose entry component is absent rather than "not found", and
`offsetToLineColumn` on such an offset fails with a TypeError (modelled
`none`) instead of returning a position or a defined not-found result. -/
theorem C10_locate_below_first {h0 : Entry} {t : List Entry} {v : Int}
    (hv : v < h0.offset) :
    locateEntry (h0 :: t) (.fin v) = .found none (-1) ∧
    offsetToLineColumn (h0 :: t) (.fin v) = none := by
  refine ⟨locate_below hv, ?_⟩
  unfold offsetToLineColumn
  rw [locate_below hv]

/-- C10 witness: offset -1 on the store of one segment "ab" at offset 0. -/
theorem C10_witness :
    locateEntry [⟨0, some 1, 1, ['a', 'b'], []⟩] (.fin (-1)) = .found none (-1) ∧
    offsetToLineColumn [⟨0, some 1, 1, ['a', 'b'], []⟩] (.fin (-1)) = none :=
  C10_locate_below_first (by decide)

theorem subset_addClass (l : List String) (c : String) : l ⊆ addClass l c := by
  unfold addClass
  split
  · exact fun x hx => hx
  · exact List.subset_append_left l [c]

theorem subset_addClasses (cs : List String) : ∀ l, l ⊆ addClasses l cs := by
  induction cs with
  | nil => intro l; exact fun x hx => hx
  | cons c cs ih =>
    intro l
    have h1 : addClasses l (c :: cs) = addClasses (addClass l c) cs := rfl
    rw [h1]
    exact fun x hx => ih (addClass l c) (subset_addClass l c hx)

theorem removeClass_subset (l : List String) (c : String) : removeClass l c ⊆ l :=
  fun x hx => List.mem_of_mem_filter hx

theorem removeClasses_subset (cs : List String) : ∀ l, removeClasses l cs ⊆ l := by
  induction cs with
  | nil => intro l; exact fun x hx => hx
  | cons c cs ih =>
    intro l
    have h1 : removeClasses l (c :: cs) = removeClasses (removeClass l c) cs := rfl
    rw [h1]
    exact fun x hx => removeClass_subset l c (ih (removeClass l c) hx)

/-- Adding classes appends a (possibly empty) tail of classes drawn from
the added list. -/
theorem addClasses_eq_append (cs : List String) :
    ∀ l, ∃ extra, addClasses l cs = l ++ extra ∧ ∀ x ∈ extra, x ∈ cs := by
  induction cs with
  | nil => intro l; exact ⟨[], by simp [addClasses], by simp⟩
  | cons c cs ih =>
    intro l
    have h1 : addClasses l (c :: cs) = addClasses (addClass l c) cs := rfl
    obtain ⟨extra, hx, hmem⟩ := ih (addClass l c)
    by_cases hc : c ∈ l
    · have h2 : addClass l c = l := by unfold addClass; rw [if_pos hc]
      refine ⟨extra, ?_, fun x hxx => List.mem_cons_of_mem c (hmem x hxx)⟩
      rw [h1, hx, h2]
    · have h2 : addClass l c = l ++ [c] := by unfold addClass; rw [if_neg hc]
      refine ⟨c :: extra, ?_, ?_⟩
      · rw [h1, hx, h2, List.append_assoc]
        rfl
      · intro x hxx
        rcases List.mem_cons.mp hxx with rfl | hxx'
        · exact List.mem_cons_self x cs
        · exact List.mem_cons_of_mem c (hmem x hxx')

/-- Removing a list of classes is filtering out its members. -/
theorem removeClasses_eq_filter (cs : List String) :
    ∀ l, removeClasses l cs = l.filter fun x => decide (x ∉ cs) := by
  induction cs with
  | nil =>
    intro l
    simp [removeClasses]
  | cons c cs ih =>
    intro l
    have h1 : removeClasses l (c :: cs) = removeClasses (removeClass l c) cs := rfl
    rw [h1, ih]
    unfold removeClass
    rw [List.filter_filter]
    congr 1
    funext x
    simp only [List.mem_cons, not_or, Bool.and_comm]
    simp [and_comm]

/-- Removing the classes just added restores a class list that was
disjoint from them. -/
theorem removeClasses_addClasses (cs : List String) (l : List String)
    (hdis : ∀ c ∈ cs, c ∉ l) :
    removeClasses (addClasses l cs) cs = l := by
  obtain ⟨extra, hx, hmem⟩ := addClasses_eq_append cs l
  rw [hx, removeClasses_eq_filter, List.filter_append]
  have h1 : l.filter (fun x => decide (x ∉ cs)) = l := by
    refine List.filter_eq_self.mpr fun a ha => ?_
    simp only [decide_eq_true_eq]
    intro hc
    exact hdis a hc ha
  have h2 : extra.filter (fun x => decide (x ∉ cs)) = [] := by
    refine List.filter_eq_nil_iff.mpr fun a ha => ?_
    simp only [decide_eq_true_eq, not_not]
    exact hmem a ha
  rw [h1, h2, List.append_nil]

theorem applyRange_length (st : List Entry) (lo hi : Int)
    (f : List String → List String) : (applyRange st lo hi f).length = st.length :=
  List.length_mapIdx

theorem applyRange_getElem (st : List Entry) (lo hi : Int)
    (f : List String → List String) (i : Nat) (h : i < st.length)
    (h2 : i < (applyRange st lo hi f).length) :
    (applyRange st lo hi f)[i]
      = if lo ≤ (i : Int) ∧ (i : Int) < hi
        then { st[i] with classes := f st[i].classes } else st[i] := by
  unfold applyRange
  rw [List.getElem_mapIdx]

/-- An empty index range applies no tag change at all. -/
theorem applyRange_of_ge (st : List Entry) {lo hi : Int}
    (f : List String → List String) (h : hi ≤ lo) :
    applyRange st lo hi f = st := by
  refine List.ext_getElem (applyRange_length st lo hi f) fun n h1 h2 => ?_
  rw [applyRange_getElem st lo hi f n h2 h1]
  rw [if_neg (by omega)]

/-- The tag loop never touches offsets or texts. -/
theorem skel_applyRange (st : List Entry) (lo hi : Int)
    (f : List String → List String) : skel (applyRange st lo hi f) = skel st := by
  unfold skel
  refine List.ext_getElem (by rw [List.length_map, List.length_map, applyRange_length])
    fun n h1 h2 => ?_
  rw [List.getElem_map, List.getElem_map]
  rw [applyRange_getElem st lo hi f n (by simpa using h2)
    (by rw [applyRange_length]; simpa using h2)]
  split
  · rfl
  · rfl

/-- Every entry keeps its offset and gains classes under the add loop. -/
theorem applyRange_corr_add (st : List Entry) (lo hi : Int) (T : List String) :
    ∀ en ∈ st, ∃ en' ∈ applyRange st lo hi (fun l => addClasses l T),
      en'.offset = en.offset ∧ en.classes ⊆ en'.classes := by
  intro en hen
  obtain ⟨k, hk, hget⟩ := List.mem_iff_getElem.mp hen
  subst hget
  have hk' : k < (applyRange st lo hi (fun l => addClasses l T)).length := by
    rw [applyRange_length]
    exact hk
  refine ⟨_, List.getElem_mem hk', ?_⟩
  rw [applyRange_getElem st lo hi _ k hk hk']
  split
  · refine ⟨rfl, ?_⟩
    show st[k].classes ⊆ addClasses st[k].classes T
    exact subset_addClasses T _
  · exact ⟨rfl, fun x hx => hx⟩

/-- Every entry keeps its offset and loses classes under the remove loop. -/
theorem applyRange_corr_remove (st : List Entry) (lo hi : Int) (T : List String) :
    ∀ en ∈ st, ∃ en' ∈ applyRange st lo hi (fun l => removeClasses l T),
      en'.offset = en.offset ∧ en'.classes ⊆ en.classes := by
  intro en hen
  obtain ⟨k, hk, hget⟩ := List.mem_iff_getElem.mp hen
  subst hget
  have hk' : k < (applyRange st lo hi (fun l => removeClasses l T)).length := by
    rw [applyRange_length]
    exact hk
  refine ⟨_, List.getElem_mem hk', ?_⟩
  rw [applyRange_getElem st lo hi _ k hk hk']
  split
  · refine ⟨rfl, ?_⟩
    show removeClasses st[k].classes T ⊆ st[k].classes
    exact removeClasses_subset T _
  · exact ⟨rfl, fun x hx => hx⟩

theorem skel_length {st1 st2 : List Entry} (h : skel st1 = skel st2) :
    st1.length = st2.length := by
  have := congrArg List.length h
  simpa [skel] using this

/-- The lookup loop only sees the skeleton: over skeleton-equal stores it
produces results of the same shape. -/
theorem locateLoop_resMatch (off total : Int) :
    ∀ (l1 l2 : List Entry), skel l1 = skel l2 →
    ∀ (c1 c2 : Option Entry), optMatch c1 c2 →
    ∀ i, resMatch (locateLoop off total l1 c1 i) (locateLoop off total l2 c2 i) := by
  intro l1
  induction l1 with
  | nil =>
    intro l2 hsk c1 c2 hc i
    have : l2 = [] := by
      cases l2 with
      | nil => rfl
      | cons b t2 => simp [skel] at hsk
    subst this
    cases c1 with
    | none =>
      cases c2 with
      | none => trivial
      | some b => cases hc
    | some a =>
      cases c2 with
      | none => cases hc
      | some b =>
        obtain ⟨ho, hl⟩ := hc
        simp only [locateLoop, locateFinal]
        by_cases hin : off < a.offset + (a.text.length : Int)
        · rw [if_pos hin, if_pos (by omega)]
          exact ⟨⟨ho, hl⟩, rfl⟩
        · rw [if_neg hin, if_neg (by omega)]
          trivial
  | cons a t1 ih =>
    intro l2 hsk c1 c2 hc i
    cases l2 with
    | nil => simp [skel] at hsk
    | cons b t2 =>
      simp only [skel, List.map_cons, List.cons.injEq, Prod.mk.injEq] at hsk
      obtain ⟨⟨ho, hl⟩, hsk'⟩ := hsk
      simp only [locateLoop]
      by_cases hlt : off < a.offset
      · rw [if_pos hlt, if_pos (by omega)]
        exact ⟨hc, rfl⟩
      · rw [if_neg hlt, if_neg (by omega)]
        exact ih t2 hsk' (some a) (some b) ⟨ho, hl⟩ (i + 1)

/-- Lookup over skeleton-equal stores gives results of the same shape. -/
theorem locateEntry_resMatch {st1 st2 : List Entry} (h : skel st1 = skel st2)
    (o : JOff) : resMatch (locateEntry st1 o) (locateEntry st2 o) := by
  cases o with
  | inf => trivial
  | fin v =>
    rw [locateEntry_fin, locateEntry_fin, skel_length h]
    exact locateLoop_resMatch v st2.length st1 st2 h none none trivial 0

/-- Splitting an existing entry grows the store by one. -/
theorem splitEntryList_length {st : List Entry} {i : Nat} {o : Int} {en : Entry}
    (hget : st[i]? = some en) :
    (splitEntryList st i o).length = st.length + 1 := by
  unfold splitEntryList
  rw [hget]
  rw [(List.perm_insertionSort _ _).length_eq]
  simp

/-- A successful boundary pass either returns the store or one entry
longer. -/
theorem ensureBoundary_len_cases {st st' : List Entry} (hwf : WF st) {o : JOff}
    (h : ensureBoundary st o = some st') :
    st' = st ∨ st'.length = st.length + 1 := by
  rcases ensureBoundary_inv hwf h with ⟨rfl, _⟩ |
    ⟨A, en, B, v, _, hdec, _, _, _, hsplit⟩
  · exact Or.inl rfl
  · right
    rw [hsplit, hdec, split_length]

/-- A boundary pass that fixes a store fixes every skeleton-equal store. -/
theorem ensureBoundary_noop_transfer {st1 st2 : List Entry} (hwf1 : WF st1)
    {o : JOff} (hsk : skel st1 = skel st2)
    (hb : ensureBoundary st1 o = some st1) : ensureBoundary st2 o = some st2 := by
  cases o with
  | inf => rfl
  | fin v =>
    have hmatch := locateEntry_resMatch hsk (.fin v)
    unfold ensureBoundary at hb ⊢
    cases h1 : locateEntry st1 (.fin v) with
    | crash =>
      rw [h1] at hb
      simp at hb
    | notFound =>
      rw [h1] at hmatch
      cases h2 : locateEntry st2 (.fin v) <;> rw [h2] at hmatch
      all_goals first
      | rfl
      | cases hmatch
    | found oe1 idx1 =>
      rw [h1] at hmatch hb
      cases h2 : locateEntry st2 (.fin v) with
      | crash =>
        rw [h2] at hmatch
        try cases hmatch
      | notFound =>
        rw [h2] at hmatch
        try cases hmatch
      | found oe2 idx2 =>
       rw [h2] at hmatch
       obtain ⟨hopt, hidx⟩ := hmatch
       cases oe1 with
       | none => simp at hb
       | some en1 =>
         cases oe2 with
         | none => cases hopt
         | some en2 =>
           obtain ⟨ho, _⟩ := hopt
           simp only [] at hb ⊢
           by_cases heq : en1.offset = v
           · rw [if_neg (by simp [← ho, heq])]
           · exfalso
             rw [if_pos (by simp [heq])] at hb
             simp only [Option.some.injEq] at hb
             obtain ⟨i, hidx1, hget, _, _, _⟩ :=
               locate_found_some_inv hwf1.sorted h1
             have hlen := @splitEntryList_length st1 idx1.toNat v _
               (by rw [show idx1.toNat = i from by omega]; exact hget)
             rw [hb] at hlen
             omega

/-- A full splitter pass that fixes a store fixes every skeleton-equal
store. -/
theorem ensureExactSpan_noop_transfer {st1 st2 : List Entry} (hwf1 : WF st1)
    {s e : JOff} (hsk : skel st1 = skel st2)
    (hb : ensureExactSpan st1 s e = some st1) :
    ensureExactSpan st2 s e = some st2 := by
  obtain ⟨stM, h1, h2⟩ := ensureExactSpan_bind hb
  have hM : stM = st1 := by
    rcases ensureBoundary_len_cases hwf1 h1 with h | hlen
    · exact h
    · have hM2 := ensureBoundary_len_cases (ensureBoundary_step hwf1 h1).1 h2
      rcases hM2 with h | hlen2
      · rw [← h] at hlen
        omega
      · omega
  subst hM
  have h1' := ensureBoundary_noop_transfer hwf1 hsk h1
  have h2' := ensureBoundary_noop_transfer hwf1 hsk h2
  unfold ensureExactSpan
  rw [h1']
  exact h2'

/-- Definition of `decorateSpan` relative to its splitter result. -/
theorem decorateSpan_eq_of {st st0 : List Entry} {s e : JOff} {T : List String}
    (hens : ensureExactSpan st s e = some st0) :
    decorateSpan st s e T =
      match locateEntry st0 s, locateEntry st0 e with
      | .crash, _ => none
      | _, .crash => none
      | .notFound, _ => some st0
      | .found _ sIdx, er =>
        some (applyRange st0 sIdx (resolveEndIndex er st0.length)
          (fun l => addClasses l T)) := by
  unfold decorateSpan
  rw [hens]

/-- Definition of `clearSpan` relative to its splitter result. -/
theorem clearSpan_eq_of {st st0 : List Entry} {s e : JOff} {T : List String}
    (hens : ensureExactSpan st s e = some st0) :
    clearSpan st s e T =
      match locateEntry st0 s, locateEntry st0 e with
      | .crash, _ => none
      | _, .crash => none
      | .notFound, _ => some st0
      | .found _ sIdx, er =>
        some (applyRange st0 sIdx (resolveEndIndex er st0.length)
          (fun l => removeClasses l T)) := by
  unfold clearSpan
  rw [hens]

/-- A successful decorate call runs the splitter first. -/
theorem decorateSpan_ensure {st st' : List Entry} {s e : JOff} {T : List String}
    (h : decorateSpan st s e T = some st') :
    ∃ st0, ensureExactSpan st s e = some st0 := by
  unfold decorateSpan at h
  cases hens : ensureExactSpan st s e with
  | none => rw [hens] at h; simp at h
  | some st0 => exact ⟨st0, rfl⟩

/-- A successful clear call runs the splitter first. -/
theorem clearSpan_ensure {st st' : List Entry} {s e : JOff} {T : List String}
    (h : clearSpan st s e T = some st') :
    ∃ st0, ensureExactSpan st s e = some st0 := by
  unfold clearSpan at h
  cases hens : ensureExactSpan st s e with
  | none => rw [hens] at h; simp at h
  | some st0 => exact ⟨st0, rfl⟩

/-- Outcome shapes of the shared selection-and-tag code. -/
theorem spanApply_cases {st0 st' : List Entry} {s e : JOff}
    {f : List String → List String}
    (h : (match locateEntry st0 s, locateEntry st0 e with
      | .crash, _ => none
      | _, .crash => none
      | .notFound, _ => some st0
      | .found _ sIdx, er =>
        some (applyRange st0 sIdx (resolveEndIndex er st0.length) f)) = some st') :
    st' = st0 ∨ ∃ lo hi, st' = applyRange st0 lo hi f := by
  cases hls : locateEntry st0 s <;> rw [hls] at h <;>
    cases hle : locateEntry st0 e <;> rw [hle] at h
  all_goals
    first
    | exact Option.noConfusion h
    | (left; exact (Option.some.inj h).symm)
    | (right; exact ⟨_, _, (Option.some.inj h).symm⟩)

/-- C9: decorate is tag-monotone and clear is tag-antitone — on a
well-formed store, after any successful `decorateSpan` every original
entry has a counterpart at its offset whose class list contains every
class it had, and after any successful `clearSpan` a counterpart whose
class list is contained in the one it had. -/
theorem C9_tag_monotone {st : List Entry} {s e : JOff} {T : List String} (hwf : WF st) :
    (∀ st', decorateSpan st s e T = some st' →
      ∀ en ∈ st, ∃ en' ∈ st', en'.offset = en.offset ∧ en.classes ⊆ en'.classes) ∧
    (∀ st'', clearSpan st s e T = some st'' →
      ∀ en ∈ st, ∃ en'' ∈ st'', en''.offset = en.offset ∧ en''.classes ⊆ en.classes) := by
  constructor
  · intro st' hd en hen
    obtain ⟨st0, hens⟩ := decorateSpan_ensure hd
    have hstep := ensureExactSpan_step hwf hens
    rw [decorateSpan_eq_of hens] at hd
    obtain ⟨en0, hen0, ho0, _, _, hcl0⟩ := hstep.2.2.2.2.2.1 en hen
    rcases spanApply_cases hd with rfl | ⟨lo, hi, rfl⟩
    · exact ⟨en0, hen0, ho0, by rw [← hcl0]; exact fun x hx => hx⟩
    · obtain ⟨en', hen', ho', hsub⟩ := applyRange_corr_add st0 lo hi T en0 hen0
      exact ⟨en', hen', ho'.trans ho0, by rw [hcl0] at hsub; exact hsub⟩
  · intro st'' hc en hen
    obtain ⟨st0, hens⟩ := clearSpan_ensure hc
    have hstep := ensureExactSpan_step hwf hens
    rw [clearSpan_eq_of hens] at hc
    obtain ⟨en0, hen0, ho0, _, _, hcl0⟩ := hstep.2.2.2.2.2.1 en hen
    rcases spanApply_cases hc with rfl | ⟨lo, hi, rfl⟩
    · exact ⟨en0, hen0, ho0, by rw [hcl0]; exact fun x hx => hx⟩
    · obtain ⟨en'', hen'', ho'', hsub⟩ := applyRange_corr_remove st0 lo hi T en0 hen0
      exact ⟨en'', hen'', ho''.trans ho0, by rw [hcl0] at hsub; exact hsub⟩

/-- C9 witness: decorating [1, 2) of "ab" with "hl" only adds classes and
clearing only removes them, at the concrete store. -/
theorem C9_witness :
    (∀ en ∈ ([⟨0, some 1, 1, ['a', 'b'], ["old"]⟩] : List Entry),
      ∃ en' ∈ ([⟨0, some 1, 1, ['a'], ["old", "hl"]⟩,
        ⟨1, some 1, 2, ['b'], ["old"]⟩] : List Entry),
        en'.offset = en.offset ∧ en.classes ⊆ en'.classes) ∧
    (∀ en ∈ ([⟨0, some 1, 1, ['a', 'b'], ["old"]⟩] : List Entry),
      ∃ en'' ∈ ([⟨0, some 1, 1, ['a'], []⟩,
        ⟨1, some 1, 2, ['b'], ["old"]⟩] : List Entry),
        en''.offset = en.offset ∧ en''.classes ⊆ en.classes) := by
  constructor
  · exact (C9_tag_monotone (s := .fin 0) (e := .fin 1) (T := ["hl"])
      (by decide)).1
      [⟨0, some 1, 1, ['a'], ["old", "hl"]⟩, ⟨1, some 1, 2, ['b'], ["old"]⟩]
      (by decide)
  · exact (C9_tag_monotone (s := .fin 0) (e := .fin 1) (T := ["old"])
      (by decide)).2
      [⟨0, some 1, 1, ['a'], []⟩, ⟨1, some 1, 2, ['b'], ["old"]⟩]
      (by decide)

/-- C4 (amended): with start >= end, decorate and clear change no
styleTags and throw nothing, provided every boundary is at or after the
first segment's offset and the end boundary does not resolve to the
found-index 0 — both calls then return exactly the store the implied
`ensureExactSpan` produced.  The implied split may still cut segments at
the boundaries, a boundary below the first segment's offset still throws,
and an end boundary located at index 0 falls through to the array length
and tags from start through the document end. -/
theorem C4_degenerate_range {st : List Entry} {s e : JOff} {T : List String}
    (hwf : WF st)
    (hge : s = .inf ∨ ∃ a b, s = .fin a ∧ e = .fin b ∧ b ≤ a) :
    ∀ st0, ensureExactSpan st s e = some st0 →
    (∀ oe i, locateEntry st0 e = .found oe i → i ≠ 0) →
    decorateSpan st s e T = some st0 ∧ clearSpan st s e T = some st0 := by
  intro st0 hens hidx
  have hstep := ensureExactSpan_step hwf hens
  have hwf0 : WF st0 := hstep.1
  rw [decorateSpan_eq_of hens, clearSpan_eq_of hens]
  by_cases hnil : st0 = []
  · subst hnil
    have hlen : st.length = 0 := by
      have := hstep.2.2.1
      simpa using this
    have hst : st = [] := List.length_eq_zero.mp hlen
    subst hst
    obtain ⟨st1, h1, h2⟩ := ensureExactSpan_bind hens
    obtain ⟨rfl, rfl⟩ := ensureBoundary_nil h1
    obtain ⟨rfl, -⟩ := ensureBoundary_nil h2
    exact ⟨rfl, rfl⟩
  · cases hls : locateEntry st0 s with
    | crash => exact absurd hls (locate_ne_crash hnil s)
    | notFound =>
      cases hle : locateEntry st0 e with
      | crash => exact absurd hle (locate_ne_crash hnil e)
      | notFound => exact ⟨rfl, rfl⟩
      | found oee ei => exact ⟨rfl, rfl⟩
    | found oes si =>
      obtain ⟨a, rfl⟩ : ∃ a, s = .fin a := by
        cases s with
        | fin a => exact ⟨a, rfl⟩
        | inf => rw [show locateEntry st0 .inf = .notFound from rfl] at hls; cases hls
      obtain ⟨b, rfl, hba⟩ : ∃ b, e = .fin b ∧ b ≤ a := by
        rcases hge with h | ⟨a', b, heq, rfl, hba⟩
        · cases h
        · cases heq
          exact ⟨b, rfl, hba⟩
      cases hle : locateEntry st0 (.fin b) with
      | crash => exact absurd hle (locate_ne_crash hnil _)
      | notFound =>
        exfalso
        obtain ⟨last, hgl, hdend⟩ := locate_notFound_inv hwf0.sorted hle
        have := locate_past (v := a) hwf0.sorted hgl (by omega)
        rw [this] at hls
        cases hls
      | found oee ei =>
        have hei0 := hidx oee ei hle
        have hsIdx := locate_found_idx hwf0.sorted hls
        have heIdx := locate_found_idx hwf0.sorted hle
        have hcnt : cntLe st0 b ≤ cntLe st0 a := by
          refine List.countP_mono_left fun x _ hx => ?_
          simp only [decide_eq_true_eq] at hx ⊢
          omega
        have hre : resolveEndIndex (.found oee ei) (st0.length : Int) = ei := by
          simp [resolveEndIndex, hei0]
        have hges : ei ≤ si := by omega
        constructor
        · simp only [hre]
          rw [applyRange_of_ge st0 (fun l => addClasses l T) hges]
        · simp only [hre]
          rw [applyRange_of_ge st0 (fun l => removeClasses l T) hges]

/-- C4 counterexample: the claim says a call with start >= end mutates
nothing, yet `decorateSpan(1, 1, [])` on the store of one segment "ab" at
offset 0 splits the segment in two. -/
theorem C4_counterexample :
    decorateSpan [⟨0, some 1, 1, ['a', 'b'], []⟩] (.fin 1) (.fin 1) []
      = some [⟨0, some 1, 1, ['a'], []⟩, ⟨1, some 1, 2, ['b'], []⟩] ∧
    some [⟨0, some 1, 1, ['a'], []⟩, ⟨1, some 1, 2, ['b'], []⟩]
      ≠ some [(⟨0, some 1, 1, ['a', 'b'], []⟩ : Entry)] := by
  constructor
  · decide
  · decide

/-- C4 witness: `decorateSpan(1, 1, ["x"])` and `clearSpan(1, 1, ["x"])`
on the store of one segment "ab" at offset 0 both return exactly the
split store, with no class changed. -/
theorem C4_witness :
    decorateSpan [⟨0, some 1, 1, ['a', 'b'], []⟩] (.fin 1) (.fin 1) ["x"]
      = some [⟨0, some 1, 1, ['a'], []⟩, ⟨1, some 1, 2, ['b'], []⟩] ∧
    clearSpan [⟨0, some 1, 1, ['a', 'b'], []⟩] (.fin 1) (.fin 1) ["x"]
      = some [⟨0, some 1, 1, ['a'], []⟩, ⟨1, some 1, 2, ['b'], []⟩] :=
  C4_degenerate_range (by decide) (Or.inr ⟨1, 1, rfl, rfl, le_refl 1⟩)
    [⟨0, some 1, 1, ['a'], []⟩, ⟨1, some 1, 2, ['b'], []⟩] (by decide)
    (by
      intro oe i h
      rw [show locateEntry [⟨0, some 1, 1, ['a'], []⟩, ⟨1, some 1, 2, ['b'], []⟩]
        (.fin 1) = LocRes.found (some ⟨1, some 1, 2, ['b'], []⟩) 1 from by decide] at h
      cases h
      decide)

theorem resolveEndIndex_notFound (L : Int) : resolveEndIndex .notFound L = L := rfl

theorem resolveEndIndex_found (oe : Option Entry) (i L : Int) :
    resolveEndIndex (.found oe i) L = if i = 0 then L else i := rfl

/-- Removing the classes just added from one entry restores it when its
class list was disjoint from the added ones. -/
theorem entry_update_undo (x : Entry) (T : List String)
    (hdis : ∀ c ∈ T, c ∉ x.classes) :
    ({ { x with classes := addClasses x.classes T } with
      classes := removeClasses
        ({ x with classes := addClasses x.classes T } : Entry).classes T } : Entry) = x := by
  obtain ⟨o1, l1, c1, t1, cl1⟩ := x
  simp only []
  rw [removeClasses_addClasses T cl1 hdis]

/-- Removing the classes just added over the same index range restores the
store when every class list was disjoint from the added ones. -/
theorem applyRange_undo {st0 : List Entry} {lo hi : Int} {T : List String}
    (hdis0 : ∀ en ∈ st0, ∀ c ∈ T, c ∉ en.classes) :
    applyRange (applyRange st0 lo hi (fun l => addClasses l T)) lo hi
      (fun l => removeClasses l T) = st0 := by
  refine List.ext_getElem (by rw [applyRange_length, applyRange_length]) fun n h1 h2 => ?_
  have hn1 : n < (applyRange st0 lo hi (fun l => addClasses l T)).length := by
    rw [applyRange_length]
    exact h2
  rw [applyRange_getElem _ lo hi _ n hn1 h1]
  rw [applyRange_getElem st0 lo hi _ n h2 hn1]
  by_cases hin : lo ≤ (n : Int) ∧ (n : Int) < hi
  · rw [if_pos hin, if_pos hin]
    exact entry_update_undo st0[n] T (fun c hc => hdis0 st0[n] (List.getElem_mem h2) c hc)
  · rw [if_neg hin, if_neg hin]

/-- Clearing the same span right after decorating it returns the aligned
store, when the original class lists were disjoint from the tag set. -/
theorem clear_restore {st0 : List Entry} {s e : JOff} {T : List String}
    (hwf0 : WF st0) (hdis0 : ∀ en ∈ st0, ∀ c ∈ T, c ∉ en.classes)
    (hidem : ensureExactSpan st0 s e = some st0)
    {oes : Option Entry} {si : Int}
    (hls : locateEntry st0 s = .found oes si) {er : LocRes}
    (hle : locateEntry st0 e = er) (her : er ≠ .crash) :
    clearSpan (applyRange st0 si (resolveEndIndex er st0.length)
      (fun l => addClasses l T)) s e T = some st0 := by
  set R := resolveEndIndex er (st0.length : Int) with hR
  set st1 := applyRange st0 si R (fun l => addClasses l T) with hst1
  have hskel : skel st0 = skel st1 := (skel_applyRange st0 si R _).symm
  have hens1 : ensureExactSpan st1 s e = some st1 :=
    ensureExactSpan_noop_transfer hwf0 hskel hidem
  have hlen : st1.length = st0.length := applyRange_length st0 si R _
  rw [clearSpan_eq_of hens1]
  have hms := locateEntry_resMatch hskel s
  rw [hls] at hms
  have hme := locateEntry_resMatch hskel e
  rw [hle] at hme
  cases hls1 : locateEntry st1 s with
  | crash =>
    rw [hls1] at hms
    cases hms
  | notFound =>
    rw [hls1] at hms
    cases hms
  | found oes1 si1 =>
    rw [hls1] at hms
    obtain ⟨-, hsi⟩ := hms
    cases hle1 : locateEntry st1 e with
    | crash =>
      rw [hle1] at hme
      cases er with
      | crash => exact absurd rfl her
      | notFound => cases hme
      | found _ _ => cases hme
    | notFound =>
      rw [hle1] at hme
      cases er with
      | crash => cases hme
      | found _ _ => cases hme
      | notFound =>
        have hRR : resolveEndIndex LocRes.notFound (st1.length : Int) = R := by
          rw [resolveEndIndex_notFound, hlen, hR, resolveEndIndex_notFound]
        show some (applyRange st1 si1 (resolveEndIndex LocRes.notFound (st1.length : Int))
          fun l => removeClasses l T) = some st0
        rw [hRR, ← hsi, hst1]
        rw [applyRange_undo hdis0]
    | found oee1 ei1 =>
      rw [hle1] at hme
      cases er with
      | crash => cases hme
      | notFound => cases hme
      | found oee ei =>
        obtain ⟨-, hei⟩ := hme
        have hRR : resolveEndIndex (LocRes.found oee1 ei1) (st1.length : Int) = R := by
          rw [resolveEndIndex_found, hlen, hR, resolveEndIndex_found, ← hei]
        show some (applyRange st1 si1 (resolveEndIndex (LocRes.found oee1 ei1) (st1.length : Int))
          fun l => removeClasses l T) = some st0
        rw [hRR, ← hsi, hst1]
        rw [applyRange_undo hdis0]

/-- C5 (amended): decorate then clear with the same range and tags
restores every segment's pre-decoration tag set — the combined effect is
exactly the boundary-aligning split — provided no segment already carried
one of the tags; a segment that already carries a tag of the set loses it
instead. -/
theorem C5_decorate_clear_inverse {st st1 : List Entry} {s e : JOff} {T : List String}
    (hwf : WF st) (hdis : ∀ en ∈ st, ∀ c ∈ T, c ∉ en.classes)
    (hd : decorateSpan st s e T = some st1) :
    ∃ st0, ensureExactSpan st s e = some st0 ∧ clearSpan st1 s e T = some st0 := by
  obtain ⟨st0, hens⟩ := decorateSpan_ensure hd
  refine ⟨st0, hens, ?_⟩
  have hstep := ensureExactSpan_step hwf hens
  have hwf0 : WF st0 := hstep.1
  have hdis0 : ∀ en ∈ st0, ∀ c ∈ T, c ∉ en.classes := by
    intro en hen c hc
    obtain ⟨en1, hen1, hcl⟩ := hstep.2.2.2.2.2.2 en hen
    rw [hcl]
    exact hdis en1 hen1 c hc
  have hidem := ensureExactSpan_idem hwf hens
  rw [decorateSpan_eq_of hens] at hd
  cases hls : locateEntry st0 s with
  | crash =>
    rw [hls] at hd
    cases hle : locateEntry st0 e <;> rw [hle] at hd <;> exact Option.noConfusion hd
  | notFound =>
    rw [hls] at hd
    cases hle : locateEntry st0 e with
    | crash =>
      rw [hle] at hd
      exact Option.noConfusion hd
    | notFound =>
      rw [hle] at hd
      have h01 : st0 = st1 := Option.some.inj hd
      subst h01
      rw [clearSpan_eq_of hidem, hls, hle]
    | found oee ei =>
      rw [hle] at hd
      have h01 : st0 = st1 := Option.some.inj hd
      subst h01
      rw [clearSpan_eq_of hidem, hls, hle]
  | found oes si =>
    rw [hls] at hd
    cases hle : locateEntry st0 e with
    | crash =>
      rw [hle] at hd
      exact Option.noConfusion hd
    | notFound =>
      rw [hle] at hd
      have h01 := (Option.some.inj hd).symm
      subst h01
      exact clear_restore hwf0 hdis0 hidem hls hle (by simp)
    | found oee ei =>
      rw [hle] at hd
      have h01 := (Option.some.inj hd).symm
      subst h01
      exact clear_restore hwf0 hdis0 hidem hls hle (by simp)

/-- C5 counterexample: a segment that already carries "hl" does not get
its tag set restored — decorate(0, 2, ["hl"]) then clear(0, 2, ["hl"]) on
the one-segment store "ab" tagged ["hl"] ends with no tags at all. -/
theorem C5_counterexample :
    (decorateSpan [⟨0, some 1, 1, ['a', 'b'], ["hl"]⟩] (.fin 0) (.fin 2) ["hl"]).bind
        (fun stm => clearSpan stm (.fin 0) (.fin 2) ["hl"])
      = some [⟨0, some 1, 1, ['a', 'b'], []⟩] ∧
    ([] : List String) ≠ ["hl"] := by
  constructor
  · decide
  · decide

/-- C5 witness: on the untagged store "ab", decorate(0, 1, ["hl"]) then
clear(0, 1, ["hl"]) returns exactly the split store. -/
theorem C5_witness :
    ∃ st0, ensureExactSpan [⟨0, some 1, 1, ['a', 'b'], []⟩] (.fin 0) (.fin 1)
        = some st0 ∧
      clearSpan [⟨0, some 1, 1, ['a'], ["hl"]⟩, ⟨1, some 1, 2, ['b'], []⟩]
        (.fin 0) (.fin 1) ["hl"] = some st0 :=
  C5_decorate_clear_inverse (by decide) (by decide) (by decide)

end PandocCodeDecorator
